import Mathlib

/-!
Verification development for the URLSpec language core (parser, validator,
resolver, printer and AST builder of the `@urlspec/language` and
`@urlspec/builder` packages).

The TypeScript sources are shallowly embedded:

* the Langium AST node interfaces (`URLSpecDocument`, `ParamTypeDeclaration`,
  `PageDeclaration`, `ParameterDeclaration`, `Path`, `PathSegment`, the
  `Type` variants) become inductive/structure types;
* `resolver.ts` (`resolve`, `resolvePage`, `resolveParameter`, `resolveType`,
  `extractDescription`) becomes a fuel-indexed function into `Except`:
  a thrown `Error` is `Except.error`, and exhaustion of the fuel models
  non-termination of the unbounded TypeScript recursion (`fuelOut` is not a
  program error: the source has no corresponding `throw`);
* `validator.ts` (`URLSpecValidator.checkParamTypeNaming`,
  `URLSpecValidator.checkPageDeclaration`) becomes functions returning lists
  of structured diagnostics, one constructor per `accept("error", ...)` call;
* `ast-builder.ts` (`createStringType`, `createTypeReference`, `parsePath`,
  `createPageDeclaration`, ...) becomes plain constructor functions;
* the printer and the parser of the current language version are modelled
  from the specification (see the doc comments of `print` and `parse`).

Langium cross-references (`TypeReference.ref.ref`, populated by the linker
for parsed documents and absent on builder output) are modelled by a
`linked : Bool` flag on the reference plus name lookup in the document:
`linked = true` means the linker attached the referenced declaration.

Comment trivia: `extractDescription` in `resolver.ts` walks the concrete
syntax tree (CST) from a node through its containers, scanning the siblings
that precede the node at each level.  We model the part of the CST this walk
can see as a list of levels, innermost first, each level being the list of
siblings preceding the node at that level (in source order); a sibling is a
line-comment token, a whitespace token, or anything else (another token or a
composite node, which the walk treats identically: it stops on them).
-/

namespace URLSpec

/-- Sibling entries of the concrete syntax tree as seen by the description
extractor: a hidden line-comment token (with its full text, including the
marker), a hidden whitespace token (with its text), or any other content
(a visible token or a composite node). -/
inductive CTok where
  | comment (text : String)
  | ws (text : String)
  | other
deriving DecidableEq, Repr

/-- Number of newline characters in a whitespace token, as counted by
the source with the regular expression match on newlines. -/
def countNewlines (s : String) : Nat :=
  s.data.countP (fun c => c = '\n')

/-- Whitespace trimming at both ends (JavaScript's `trim`). -/
def trimChars (l : List Char) : List Char :=
  ((l.dropWhile Char.isWhitespace).reverse.dropWhile Char.isWhitespace).reverse

/-- Comment text cleanup of the source: remove the leading comment marker and
the whitespace after it, then trim. -/
def stripComment (s : String) : String :=
  String.mk (trimChars (match s.data with
    | '/' :: '/' :: t => t.dropWhile Char.isWhitespace
    | t => t))

/-- Backward scan over the siblings preceding a node at one CST level
(the source iterates indices downward; here the list is already reversed, so
its head is the sibling closest to the node).  `acc` holds the comment texts
collected so far in source order and `found` is the source's
`foundNonWhitespace` flag. -/
def scanLevel : List CTok → List String → Bool → List String
  | [], acc, _ => acc
  | CTok.comment t :: rest, acc, _ =>
      let s := stripComment t
      scanLevel rest (if s = "" then acc else s :: acc) true
  | CTok.ws t :: rest, acc, found =>
      if countNewlines t > 1 && found then acc else scanLevel rest acc found
  | CTok.other :: _, acc, _ => acc

/-- Walk of `extractDescription` over the CST levels, innermost first: at each
level scan the preceding siblings; stop at the first level that yields at
least one comment. -/
def extractLevels : List (List CTok) → Option String
  | [] => none
  | level :: outer =>
      let cs := scanLevel level.reverse [] false
      if cs.isEmpty then extractLevels outer
      else some (String.intercalate "\n" cs)

/-- Embedding of `extractDescription` (resolver.ts): `none` input models a
node without a `$cstNode`; otherwise the walk over the node's CST context. -/
def extractDescription (cst : Option (List (List CTok))) : Option String :=
  match cst with
  | none => none
  | some levels => extractLevels levels

/-! ## The AST -/

/-- The `Type` variants of the generated AST.  A parsed `StringLiteralType`
keeps the surrounding quotes in `value` (the resolver strips them).  A
`TypeReference` carries the reference text, and `linked` records whether the
Langium linker attached the referenced declaration (`ref.ref` in the source):
true for references resolvable in a parsed document, false on builder
output, whose `createTypeReference` only sets `$refText`. -/
inductive Ty where
  | stringKw
  | strLit (value : String)
  | union (values : List String)
  | ref (refText : String) (linked : Bool)
deriving DecidableEq, Repr

/-- A CST context for description extraction, attached to declarations
(models the node's `$cstNode`; `none` for builder-created nodes). -/
abbrev CstCtx := List (List CTok)

/-- The `PathSegment` AST node: either `static` (the literal text, carrying
its own leading slash) or `parameter` is set. -/
structure PathSegment where
  static : Option String := none
  parameter : Option String := none
deriving DecidableEq, Repr

/-- The `Path` AST node: `root` is set for the bare root path. -/
structure Path where
  root : Bool := false
  segments : List PathSegment := []
deriving DecidableEq, Repr

/-- The `ParameterDeclaration` AST node (`optional` models the `"?"`-or-
undefined field by its truthiness, as the resolver reads it). -/
structure ParameterDeclaration where
  name : String
  optional : Bool := false
  type : Ty
  cst : Option CstCtx := none
deriving DecidableEq, Repr

/-- The `ParamTypeDeclaration` AST node. -/
structure ParamTypeDeclaration where
  name : String
  type : Ty
  cst : Option CstCtx := none
deriving DecidableEq, Repr

/-- The `PageDeclaration` AST node. -/
structure PageDeclaration where
  name : String
  path : Path
  parameters : List ParameterDeclaration
  cst : Option CstCtx := none
deriving DecidableEq, Repr

/-- The `URLSpecDocument` AST root.  `global` is the optional `GlobalBlock`
(kept as its parameter list, the only field the pipeline reads).
Modelled from the spec: the generated AST file is not part of the sources;
the fields and their order follow the builder's `createURLSpecDocument`
plus the document-level optional endpoint URL described in the spec's data
model (the resolver never reads it). -/
structure URLSpecDocument where
  endpoint : Option String := none
  paramTypes : List ParamTypeDeclaration
  global : Option (List ParameterDeclaration) := none
  pages : List PageDeclaration
deriving DecidableEq, Repr

/-! ## Resolved model (resolved-types.ts) -/

/-- The `ResolvedType` union: `TypeReference` is eliminated. -/
inductive ResolvedType where
  | string
  | literal (value : String)
  | union (values : List String)
deriving DecidableEq, Repr

/-- The `type` tag of a `ResolvedPathSegment`. -/
inductive SegKind where
  | static
  | parameter
deriving DecidableEq, Repr

/-- The `ResolvedPathSegment` record. -/
structure ResolvedPathSegment where
  type : SegKind
  value : String
deriving DecidableEq, Repr

/-- The `source` tag of a `ResolvedParameter`. -/
inductive ParamSource where
  | global
  | page
deriving DecidableEq, Repr

/-- The `ResolvedParameter` record. -/
structure ResolvedParameter where
  name : String
  optional : Bool
  type : ResolvedType
  source : ParamSource
  description : Option String
deriving DecidableEq, Repr

/-- The `ResolvedParamType` record. -/
structure ResolvedParamType where
  name : String
  type : ResolvedType
  description : Option String
deriving DecidableEq, Repr

/-- The `ResolvedPage` record. -/
structure ResolvedPage where
  name : String
  path : String
  pathSegments : List ResolvedPathSegment
  parameters : List ResolvedParameter
  description : Option String
deriving DecidableEq, Repr

/-- The `ResolvedURLSpec` record (resolved-types.ts): `paramTypes`, `pages`
and the optional `global` list.  It has no endpoint attribute. -/
structure ResolvedURLSpec where
  paramTypes : List ResolvedParamType
  pages : List ResolvedPage
  global : Option (List ResolvedParameter)
deriving DecidableEq, Repr

/-! ## Resolver (resolver.ts) -/

/-- The failures `resolve` can signal.  `unresolvedRef` and `invalidSegment`
model the two `throw new Error(...)` sites reachable over our closed AST;
`unknownType` models the unreachable fall-through throw of `resolveType`.
`fuelOut` is not a program error: it models exhaustion of the recursion
bound, i.e. the source recursing beyond any given depth.  The source has no
cyclic-reference error of any kind. -/
inductive ResolveError where
  | unresolvedRef (name : String)
  | unknownType
  | invalidSegment
  | fuelOut
deriving DecidableEq, Repr

/-- The quote stripping `value.replace` of the resolver: one leading and one
trailing double quote are removed if present. -/
def stripQuotes (v : String) : String :=
  let l := match v.data with
    | '"' :: t => t
    | t => t
  String.mk (if l.getLast? = some '"' then l.dropLast else l)

/-- Name lookup of a `ParamTypeDeclaration`, standing for the Langium
linker's resolution target (`type.ref.ref`). -/
def lookupParamType (decls : List ParamTypeDeclaration) (nm : String) :
    Option ParamTypeDeclaration :=
  decls.find? (fun d => d.name == nm)

/-- Embedding of `resolveType` (resolver.ts).  The TypeScript recursion
`resolveType(type.ref.ref.type)` is unbounded; `fuel` bounds it, and
`fuelOut` reports that the bound was reached.  A reference whose `linked`
flag is false (or whose target name is absent) has no `ref.ref` and hits the
`Unresolved type reference` throw. -/
def resolveType (decls : List ParamTypeDeclaration) : Nat → Ty → Except ResolveError ResolvedType
  | _, Ty.stringKw => Except.ok ResolvedType.string
  | _, Ty.strLit v => Except.ok (ResolvedType.literal (stripQuotes v))
  | _, Ty.union vs => Except.ok (ResolvedType.union (vs.map stripQuotes))
  | fuel, Ty.ref nm linked =>
      if linked then
        match lookupParamType decls nm with
        | some d =>
            match fuel with
            | 0 => Except.error ResolveError.fuelOut
            | fuel + 1 => resolveType decls fuel d.type
        | none => Except.error (ResolveError.unresolvedRef nm)
      else Except.error (ResolveError.unresolvedRef nm)

/-- Embedding of `resolveParameter` (resolver.ts). -/
def resolveParameter (decls : List ParamTypeDeclaration) (fuel : Nat)
    (param : ParameterDeclaration) (source : ParamSource) :
    Except ResolveError ResolvedParameter := do
  let t ← resolveType decls fuel param.type
  pure { name := param.name, optional := param.optional, type := t,
         source := source, description := extractDescription param.cst }

/-- JavaScript truthiness of an optional string field: undefined and the
empty string are falsy. -/
def truthy : Option String → Bool
  | some s => s != ""
  | none => false

/-- Embedding of `resolvePage` (resolver.ts). -/
def resolvePage (decls : List ParamTypeDeclaration) (fuel : Nat)
    (globalParams : List ResolvedParameter) (page : PageDeclaration) :
    Except ResolveError ResolvedPage :=
  if page.path.root then do
    let own ← page.parameters.mapM (fun p => resolveParameter decls fuel p ParamSource.page)
    pure { name := page.name, path := "/", pathSegments := [],
           parameters := globalParams ++ own,
           description := extractDescription page.cst }
  else do
    let pathSegments ← page.path.segments.mapM (fun seg =>
      if truthy seg.static then
        pure { type := SegKind.static, value := (seg.static.getD "").drop 1 }
      else if truthy seg.parameter then
        pure ({ type := SegKind.parameter, value := seg.parameter.getD "" } : ResolvedPathSegment)
      else Except.error ResolveError.invalidSegment)
    let path := String.join (pathSegments.map (fun s =>
      match s.type with
      | SegKind.static => "/" ++ s.value
      | SegKind.parameter => "/:" ++ s.value))
    let own ← page.parameters.mapM (fun p => resolveParameter decls fuel p ParamSource.page)
    pure { name := page.name, path := path, pathSegments := pathSegments,
           parameters := globalParams ++ own,
           description := extractDescription page.cst }

/-- Embedding of `resolve` (resolver.ts): param types, then the global
parameters (tag `global`), then the pages with the global parameters
prepended; the `global` attribute of the result is set only when at least
one global parameter was resolved. -/
def resolve (fuel : Nat) (doc : URLSpecDocument) : Except ResolveError ResolvedURLSpec := do
  let paramTypes ← doc.paramTypes.mapM (fun pt => do
    let t ← resolveType doc.paramTypes fuel pt.type
    pure { name := pt.name, type := t, description := extractDescription pt.cst : ResolvedParamType })
  let globalParams ← (match doc.global with
    | some ps => ps.mapM (fun p => resolveParameter doc.paramTypes fuel p ParamSource.global)
    | none => pure [])
  let pages ← doc.pages.mapM (fun page => resolvePage doc.paramTypes fuel globalParams page)
  pure { paramTypes := paramTypes, pages := pages,
         global := if globalParams.length > 0 then some globalParams else none }

/-! ## Validator (validator.ts) -/

/-- The camelCase test of the validator: the regular expression
anchored lowercase letter followed by letters and digits. -/
def isCamelCase (s : String) : Bool :=
  match s.data with
  | [] => false
  | c :: rest => c.isLower && rest.all (fun d => d.isAlpha || d.isDigit)

/-- Structured diagnostics, one constructor per `accept("error", ...)` call
site of validator.ts, carrying the data interpolated into the message:
the param-type-naming error, the page-naming error, and the
`Path parameter must be declared in the parameter block` error (with the
page whose path is flagged and the missing parameter named in the message).
All three have severity error. -/
inductive Diagnostic where
  | paramTypeNaming (name : String)
  | pageNaming (name : String)
  | missingPathParam (page : String) (param : String)
deriving DecidableEq, Repr

/-- Embedding of `URLSpecValidator.checkParamTypeNaming`. -/
def checkParamTypeNaming (pt : ParamTypeDeclaration) : List Diagnostic :=
  if isCamelCase pt.name then [] else [Diagnostic.paramTypeNaming pt.name]

/-- Insertion into a JavaScript `Set` viewed as an insertion-ordered list. -/
def insertUnique (acc : List String) (x : String) : List String :=
  if acc.contains x then acc else acc ++ [x]

/-- The `pathParams` set of `checkPageDeclaration`: the truthy `parameter`
fields of the path segments, first occurrence first. -/
def pathParamNames (segments : List PathSegment) : List String :=
  (segments.filterMap (fun seg => if truthy seg.parameter then seg.parameter else none)).foldl
    insertUnique []

/-- Embedding of `URLSpecValidator.checkPageDeclaration`: the camelCase check
on the page name, then one error per path parameter name missing from the
page's declared parameters. -/
def checkPageDeclaration (page : PageDeclaration) : List Diagnostic :=
  (if isCamelCase page.name then [] else [Diagnostic.pageNaming page.name]) ++
    ((pathParamNames page.path.segments).filter
        (fun x => !(page.parameters.map (fun p => p.name)).contains x)).map
      (fun x => Diagnostic.missingPathParam page.name x)

/-- Modelled from the spec: the document-level validation driver (Langium's
`DocumentValidator`, framework code outside this repository) applies the
checks registered by `URLSpecValidator.registerChecks` to every AST node of
the document; the registered checks are `checkParamTypeNaming` on
`ParamTypeDeclaration` nodes and `checkPageDeclaration` on `PageDeclaration`
nodes, and no check is registered for any other node kind (in particular
none for `ParameterDeclaration`). -/
def validate (doc : URLSpecDocument) : List Diagnostic :=
  (doc.paramTypes.map checkParamTypeNaming).flatten ++
    (doc.pages.map checkPageDeclaration).flatten

/-! ## AST builder (ast-builder.ts) -/

/-- Embedding of `createStringType`. -/
def createStringType : Ty := Ty.stringKw

/-- Embedding of `createStringLiteralType` (the value is stored as given,
without quotes). -/
def createStringLiteralType (value : String) : Ty := Ty.strLit value

/-- Embedding of `createUnionType`. -/
def createUnionType (values : List String) : Ty := Ty.union values

/-- Embedding of `createTypeReference`: only `$refText` is set; the linked
target `ref.ref` is absent, hence `linked := false`. -/
def createTypeReference (refName : String) : Ty := Ty.ref refName false

/-- Embedding of `createParamTypeDeclaration` (builder nodes carry no CST). -/
def createParamTypeDeclaration (name : String) (type : Ty) : ParamTypeDeclaration :=
  { name := name, type := type, cst := none }

/-- Embedding of `createParameterDeclaration`. -/
def createParameterDeclaration (name : String) (type : Ty) (optional : Bool) :
    ParameterDeclaration :=
  { name := name, optional := optional, type := type, cst := none }

/-- Embedding of `createPathSegment`. -/
def createPathSegment (value : String) (isParameter : Bool) : PathSegment :=
  { static := if isParameter then none else some value,
    parameter := if isParameter then some value else none }

/-- Split on slash characters (JavaScript's `split("/")`). -/
def splitOnSlash : List Char → List (List Char)
  | [] => [[]]
  | '/' :: rest => [] :: splitOnSlash rest
  | c :: rest =>
      match splitOnSlash rest with
      | g :: gs => (c :: g) :: gs
      | [] => [[c]]

/-- Embedding of the builder's `parsePath`: the root path gives `root`;
otherwise the string is split on slashes, empty parts dropped, `:`-prefixed
parts become parameter segments and the rest become static segments carrying
their leading slash. -/
def parsePath (pathStr : String) : Path :=
  if pathStr = "/" then { root := true, segments := [] }
  else
    { root := false,
      segments := ((splitOnSlash pathStr.data).filter (fun p => !p.isEmpty)).map (fun part =>
        match part with
        | ':' :: nm => createPathSegment (String.mk nm) true
        | _ => createPathSegment ("/" ++ String.mk part) false) }

/-- Embedding of `createGlobalBlock` (the block is its parameter list). -/
def createGlobalBlock (parameters : List ParameterDeclaration) : List ParameterDeclaration :=
  parameters

/-- Embedding of `createPageDeclaration`. -/
def createPageDeclaration (name : String) (pathStr : String)
    (parameters : Option (List ParameterDeclaration)) : PageDeclaration :=
  { name := name, path := parsePath pathStr, parameters := parameters.getD [], cst := none }

/-- Embedding of `createURLSpecDocument` (no endpoint option: the builder
never sets one). -/
def createURLSpecDocument (paramTypes : List ParamTypeDeclaration)
    (global : Option (List ParameterDeclaration)) (pages : List PageDeclaration) :
    URLSpecDocument :=
  { endpoint := none, paramTypes := paramTypes, global := global, pages := pages }

/-! ## Printer

Modelled from the spec: the printer of the current language version is not
among the sources (the `printer.ts` snapshot that is predates the removal of
namespace declarations and the slash-carrying path segments its own tests
require, and would not type-check against the current AST).  Following the
spec's printer contract: serialization order endpoint declaration, param
type declarations, global block, page declarations; each section separated
by exactly one blank line; two-space indentation inside blocks; literals
quoted; unions separated by a pipe with spaces; `": "` and `"?: "` for
parameter declarations; a static path segment contributes its text (which
carries its own leading slash) and a parameter segment a slash, colon and
name; the root path prints as a bare slash; trailing newline. -/

/-- Quoting of a literal value as the printer emits it: parsed values keep
their quotes, builder values (stored bare) are wrapped. -/
def quoteVal (v : String) : String :=
  match v.data with
  | '"' :: _ => v
  | _ => "\"" ++ v ++ "\""

/-- Join of a list of strings with a separator between consecutive entries
(recursive form convenient for reasoning; agrees with `intercalate`). -/
def joinSep (sep : String) : List String → String
  | [] => ""
  | [l] => l
  | l :: ls => l ++ sep ++ joinSep sep ls

/-- Printing of a `Type` (mirrors the stale printer's `printType`, which the
current printer keeps: `string`, quote-preserving literals, pipe-separated
unions, the reference text of a reference, with the `unknown` fallback for
an absent reference text). -/
def printType : Ty → String
  | Ty.stringKw => "string"
  | Ty.strLit v => quoteVal v
  | Ty.union vs => joinSep " | " (vs.map quoteVal)
  | Ty.ref nm _ => if nm = "" then "unknown" else nm

/-- Printing of one parameter declaration line body. -/
def printParameter (p : ParameterDeclaration) : String :=
  p.name ++ (if p.optional then "?" else "") ++ ": " ++ printType p.type ++ ";"

/-- Printing of one path segment. -/
def printPathSegment (seg : PathSegment) : String :=
  if truthy seg.static then seg.static.getD ""
  else if truthy seg.parameter then "/:" ++ (seg.parameter.getD "")
  else ""

/-- Printing of a path. -/
def printPath (path : Path) : String :=
  if path.root then "/" else String.join (path.segments.map printPathSegment)

/-- Lines of one page section. -/
def printPage (page : PageDeclaration) : List String :=
  ("page " ++ page.name ++ " = " ++ printPath page.path ++ " \x7b")
    :: page.parameters.map (fun p => "  " ++ printParameter p)
    ++ ["\x7d"]

/-- Lines of the global section. -/
def printGlobal (ps : List ParameterDeclaration) : List String :=
  "global \x7b" :: ps.map (fun p => "  " ++ printParameter p) ++ ["\x7d"]

/-- The sections of the canonical output, each a list of lines: endpoint,
param types, global block, one section per page. -/
def docSections (doc : URLSpecDocument) : List (List String) :=
  (match doc.endpoint with
   | some u => [["endpoint \"" ++ u ++ "\";"]]
   | none => [])
  ++ (if doc.paramTypes.isEmpty then []
      else [doc.paramTypes.map (fun pt => "param " ++ pt.name ++ " = " ++ printType pt.type ++ ";")])
  ++ (match doc.global with
      | some ps => [printGlobal ps]
      | none => [])
  ++ doc.pages.map printPage

/-- The canonical printer: sections joined by one blank line, lines joined
by newlines, trailing newline. -/
def print (doc : URLSpecDocument) : String :=
  joinSep "\n\n" ((docSections doc).map (joinSep "\n")) ++ "\n"

/-! ## Lexer

Modelled from the spec: the Langium grammar file and the generated lexer are
not among the sources.  Terminals per the spec's grammar sketch: identifiers
(any casing, underscores allowed), double-quoted string literals,
path-segment text carrying its leading slash (letters, digits, hyphens),
the punctuation of the statement forms, and hidden trivia (whitespace and
line comments, dropped from the token stream). -/

/-- Whitespace characters. -/
def isWsChar (c : Char) : Bool :=
  c = ' ' || c = '\n' || c = '\t' || c = '\r'

/-- First character of an identifier. -/
def isIdentStart (c : Char) : Bool := c.isAlpha || c = '_'

/-- Subsequent character of an identifier. -/
def isIdentChar (c : Char) : Bool := c.isAlphanum || c = '_'

/-- Character of a path-segment body (letters, digits, hyphens). -/
def isPathChar (c : Char) : Bool := c.isAlphanum || c = '-'

/-- Tokens.  Keywords are not distinguished from identifiers at the lexical
level (the language accepts keywords as parameter names); `str` carries the
text between the quotes; `pathSeg` the segment body after its slash. -/
inductive Tok where
  | ident (s : String)
  | str (s : String)
  | pathSeg (s : String)
  | slash
  | lbrace
  | rbrace
  | eq
  | semi
  | quest
  | colon
  | pipe
deriving DecidableEq, Repr

/-- The lexer: skips whitespace and line comments, munches identifiers,
path segments and string literals maximally, and errors on anything else
(unterminated string, foreign character). -/
def lex : List Char → Option (List Tok)
  | [] => some []
  | c :: cs =>
    if isWsChar c then lex cs
    else if c = '/' then
      match cs with
      | [] => some [Tok.slash]
      | d :: rest =>
        if d = '/' then lex (rest.dropWhile (fun e => e ≠ '\n'))
        else if isPathChar d then
          (lex (rest.dropWhile isPathChar)).map
            (fun ts => Tok.pathSeg (String.mk (d :: rest.takeWhile isPathChar)) :: ts)
        else (lex (d :: rest)).map (fun ts => Tok.slash :: ts)
    else if c = '"' then
      if hq : (cs.takeWhile (fun d => d ≠ '"')).length < cs.length then
        (lex (cs.drop ((cs.takeWhile (fun d => d ≠ '"')).length + 1))).map
          (fun ts => Tok.str (String.mk (cs.takeWhile (fun d => d ≠ '"'))) :: ts)
      else none
    else if isIdentStart c then
      (lex (cs.dropWhile isIdentChar)).map
        (fun ts => Tok.ident (String.mk (c :: cs.takeWhile isIdentChar)) :: ts)
    else if c = '\x7b' then (lex cs).map (fun ts => Tok.lbrace :: ts)
    else if c = '\x7d' then (lex cs).map (fun ts => Tok.rbrace :: ts)
    else if c = '=' then (lex cs).map (fun ts => Tok.eq :: ts)
    else if c = ';' then (lex cs).map (fun ts => Tok.semi :: ts)
    else if c = '?' then (lex cs).map (fun ts => Tok.quest :: ts)
    else if c = ':' then (lex cs).map (fun ts => Tok.colon :: ts)
    else if c = '|' then (lex cs).map (fun ts => Tok.pipe :: ts)
    else none
termination_by l => l.length
decreasing_by
  all_goals simp_wf
  all_goals try omega
  all_goals try exact Nat.lt_succ_of_le (Nat.le_succ_of_le (List.dropWhile_suffix _).length_le)
  all_goals try exact Nat.lt_succ_of_le (List.dropWhile_suffix _).length_le

/-! ## Parser

Modelled from the spec: the grammar file and the Langium-generated parser
are not among the sources.  Recursive descent over the token stream per the
spec's grammar: a document is a sequence of endpoint, param-type, global and
page declarations in any order (at most one endpoint and one global block,
matching the data model); after parsing, the linker pass marks each type
reference whose target declaration exists (`linkDoc`, standing for Langium's
cross-reference linking). -/

/-- A parse result carrying the remaining tokens and the proof that tokens
were consumed (for termination of the statement loop). -/
structure Consumed (α : Type) (toks : List Tok) where
  val : α
  rest : List Tok
  lt : rest.length < toks.length

/-- String literal value as stored in the parsed AST: the quotes are kept. -/
def qv (s : String) : String := "\"" ++ s ++ "\""

/-- Tail of a union type: string literals separated by pipes. -/
def parseUnionTail : (toks : List Tok) → Option (Consumed (List String) toks)
  | Tok.str s :: Tok.pipe :: rest =>
      match parseUnionTail rest with
      | some c => some ⟨qv s :: c.val, c.rest, by have := c.lt; simp only [List.length_cons] at *; omega⟩
      | none => none
  | Tok.str s :: rest => some ⟨[qv s], rest, by simp only [List.length_cons]; omega⟩
  | _ => none

/-- A type expression: the `string` keyword, a literal, a union of two or
more literals, or a bare identifier as a type-reference candidate (validity
deferred to resolution). -/
def parseTypeToks : (toks : List Tok) → Option (Consumed Ty toks)
  | Tok.ident nm :: rest =>
      if nm = "string" then some ⟨Ty.stringKw, rest, by simp only [List.length_cons]; omega⟩
      else some ⟨Ty.ref nm false, rest, by simp only [List.length_cons]; omega⟩
  | Tok.str s :: Tok.pipe :: rest =>
      match parseUnionTail rest with
      | some c => some ⟨Ty.union (qv s :: c.val), c.rest, by have := c.lt; simp only [List.length_cons] at *; omega⟩
      | none => none
  | Tok.str s :: rest => some ⟨Ty.strLit (qv s), rest, by simp only [List.length_cons]; omega⟩
  | _ => none

/-- One parameter entry: name, optional question mark, colon, type,
semicolon.  Any identifier (keywords included) is a legal name. -/
def parseEntry : (toks : List Tok) → Option (Consumed ParameterDeclaration toks)
  | Tok.ident nm :: Tok.quest :: Tok.colon :: rest =>
      match parseTypeToks rest with
      | some c =>
          match h : c.rest with
          | Tok.semi :: r2 =>
              some ⟨{ name := nm, optional := true, type := c.val, cst := none }, r2, by
                have := c.lt; rw [h] at this; simp at this ⊢; omega⟩
          | _ => none
      | none => none
  | Tok.ident nm :: Tok.colon :: rest =>
      match parseTypeToks rest with
      | some c =>
          match h : c.rest with
          | Tok.semi :: r2 =>
              some ⟨{ name := nm, optional := false, type := c.val, cst := none }, r2, by
                have := c.lt; rw [h] at this; simp at this ⊢; omega⟩
          | _ => none
      | none => none
  | _ => none

/-- Parameter entries up to and including the closing brace. -/
def parseParams : (toks : List Tok) → Option (Consumed (List ParameterDeclaration) toks)
  | Tok.rbrace :: rest => some ⟨[], rest, by simp only [List.length_cons]; omega⟩
  | toks =>
      match parseEntry toks with
      | some c =>
          match parseParams c.rest with
          | some c2 => some ⟨c.val :: c2.val, c2.rest, by have := c.lt; have := c2.lt; omega⟩
          | none => none
      | none => none
termination_by toks => toks.length
decreasing_by all_goals exact c.lt

/-- One or more path atoms: a static segment token, or slash-colon-name for
a parameter segment; stops before the first non-atom token. -/
def parseAtoms : (toks : List Tok) → Option (Consumed (List PathSegment) toks)
  | Tok.pathSeg s :: rest =>
      match parseAtoms rest with
      | some c =>
          some ⟨{ static := some ("/" ++ s), parameter := none } :: c.val, c.rest, by
            have := c.lt; simp only [List.length_cons] at *; omega⟩
      | none => some ⟨[{ static := some ("/" ++ s), parameter := none }], rest, by simp only [List.length_cons]; omega⟩
  | Tok.slash :: Tok.colon :: Tok.ident nm :: rest =>
      match parseAtoms rest with
      | some c =>
          some ⟨{ static := none, parameter := some nm } :: c.val, c.rest, by
            have := c.lt; simp only [List.length_cons] at *; omega⟩
      | none => some ⟨[{ static := none, parameter := some nm }], rest, by simp only [List.length_cons]; omega⟩
  | _ => none

/-- A path: the bare root slash, or a nonempty atom sequence. -/
def parsePathToks : (toks : List Tok) → Option (Consumed Path toks)
  | Tok.slash :: Tok.colon :: rest =>
      match parseAtoms (Tok.slash :: Tok.colon :: rest) with
      | some c => some ⟨{ root := false, segments := c.val }, c.rest, c.lt⟩
      | none => none
  | Tok.pathSeg s :: rest =>
      match parseAtoms (Tok.pathSeg s :: rest) with
      | some c => some ⟨{ root := false, segments := c.val }, c.rest, c.lt⟩
      | none => none
  | Tok.slash :: rest => some ⟨{ root := true, segments := [] }, rest, by simp only [List.length_cons]; omega⟩
  | _ => none

/-- A declaration statement. -/
inductive Decl where
  | endpointD (url : String)
  | paramTypeD (pt : ParamTypeDeclaration)
  | globalD (ps : List ParameterDeclaration)
  | pageD (pg : PageDeclaration)
deriving DecidableEq, Repr

/-- One declaration: endpoint, param type, global block, or page. -/
def parseDecl : (toks : List Tok) → Option (Consumed Decl toks)
  | Tok.ident "endpoint" :: Tok.str u :: Tok.semi :: rest =>
      some ⟨Decl.endpointD u, rest, by simp only [List.length_cons]; omega⟩
  | Tok.ident "param" :: Tok.ident nm :: Tok.eq :: rest =>
      match parseTypeToks rest with
      | some c =>
          match h : c.rest with
          | Tok.semi :: r2 =>
              some ⟨Decl.paramTypeD { name := nm, type := c.val, cst := none }, r2, by
                have := c.lt; rw [h] at this; simp at this ⊢; omega⟩
          | _ => none
      | none => none
  | Tok.ident "global" :: Tok.lbrace :: rest =>
      match parseParams rest with
      | some c => some ⟨Decl.globalD c.val, c.rest, by have := c.lt; simp only [List.length_cons] at *; omega⟩
      | none => none
  | Tok.ident "page" :: Tok.ident nm :: Tok.eq :: rest =>
      match parsePathToks rest with
      | some c =>
          match h : c.rest with
          | Tok.lbrace :: r2 =>
              match parseParams r2 with
              | some c2 =>
                  some ⟨Decl.pageD { name := nm, path := c.val, parameters := c2.val, cst := none },
                    c2.rest, by
                      have h1 := c.lt; rw [h] at h1
                      have h2 := c2.lt
                      simp at h1 ⊢; omega⟩
              | none => none
          | _ => none
      | none => none
  | _ => none

/-- The statement loop: declarations until the tokens are exhausted. -/
def parseStmts : (toks : List Tok) → Option (List Decl)
  | [] => some []
  | toks =>
      match parseDecl toks with
      | some c => (parseStmts c.rest).map (fun ds => c.val :: ds)
      | none => none
termination_by toks => toks.length
decreasing_by all_goals exact c.lt

/-- Assembly of the declaration list into a document: paramTypes and pages
in source order, at most one endpoint and one global block. -/
def assembleGo : List Decl → URLSpecDocument → Option URLSpecDocument
  | [], acc => some acc
  | Decl.endpointD u :: rest, acc =>
      match acc.endpoint with
      | some _ => none
      | none => assembleGo rest { acc with endpoint := some u }
  | Decl.paramTypeD pt :: rest, acc =>
      assembleGo rest { acc with paramTypes := acc.paramTypes ++ [pt] }
  | Decl.globalD ps :: rest, acc =>
      match acc.global with
      | some _ => none
      | none => assembleGo rest { acc with global := some ps }
  | Decl.pageD pg :: rest, acc =>
      assembleGo rest { acc with pages := acc.pages ++ [pg] }

/-- Assembly from the empty document. -/
def assemble (ds : List Decl) : Option URLSpecDocument :=
  assembleGo ds { endpoint := none, paramTypes := [], global := none, pages := [] }

/-- Linking of one type: a reference is marked linked exactly when the
referenced param-type name is declared (Langium's cross-reference linker). -/
def linkTy (names : List String) : Ty → Ty
  | Ty.ref nm _ => Ty.ref nm (names.contains nm)
  | t => t

/-- Linking of one parameter declaration. -/
def linkParam (names : List String) (p : ParameterDeclaration) : ParameterDeclaration :=
  { p with type := linkTy names p.type }

/-- The linker pass over a parsed document. -/
def linkDoc (doc : URLSpecDocument) : URLSpecDocument :=
  let names := doc.paramTypes.map (fun pt => pt.name)
  { doc with
    paramTypes := doc.paramTypes.map (fun pt => { pt with type := linkTy names pt.type }),
    global := doc.global.map (fun ps => ps.map (linkParam names)),
    pages := doc.pages.map (fun pg => { pg with parameters := pg.parameters.map (linkParam names) }) }

/-- The parser entry point (`parse` of parser.ts, with Langium's lexing,
parsing and linking modelled as above; the CST trivia is not modelled, so
parsed nodes carry no CST context). -/
def parse (s : String) : Option URLSpecDocument := do
  let toks ← lex s.data
  let ds ← parseStmts toks
  let doc ← assemble ds
  pure (linkDoc doc)

/-- Composition the round-trip property speaks about: parse then print. -/
def printParse (s : String) : Option String := (parse s).map print

/-! ## Well-formedness invariants of parser output

These predicates characterize the documents the parser can produce; they are
the induction vehicle for the round-trip theorem (not part of the source). -/

/-- Identifier shape. -/
def identShape (s : String) : Bool :=
  match s.data with
  | [] => false
  | c :: rest => isIdentStart c && rest.all isIdentChar

/-- Interior of a string literal: no double quote. -/
def innerOk (s : String) : Bool := s.data.all (fun c => c ≠ '"')

/-- A stored literal value: quote, quote-free interior, quote. -/
def quotedShape (v : String) : Bool :=
  match v.data with
  | c :: rest =>
      c = '"' && !rest.isEmpty && rest.dropLast.all (fun d => d ≠ '"')
        && (rest.getLast? == some '"')
  | [] => false

/-- Well-formedness of a type with respect to the declared param-type
names (the `linked` flag agrees with the linker). -/
def WfTy (names : List String) : Ty → Bool
  | Ty.stringKw => true
  | Ty.strLit v => quotedShape v
  | Ty.union vs => decide (2 ≤ vs.length) && vs.all quotedShape
  | Ty.ref nm linked => identShape nm && nm ≠ "string" && (linked == names.contains nm)

/-- Well-formedness of a parameter declaration. -/
def WfParam (names : List String) (p : ParameterDeclaration) : Bool :=
  identShape p.name && WfTy names p.type && (p.cst == none)

/-- Well-formedness of a path segment. -/
def WfSeg (seg : PathSegment) : Bool :=
  match seg.static, seg.parameter with
  | some s, none =>
      match s.data with
      | c :: body => c = '/' && !body.isEmpty && body.all isPathChar
      | [] => false
  | none, some nm => identShape nm
  | _, _ => false

/-- Well-formedness of a path: the root flag excludes segments, otherwise at
least one well-formed segment. -/
def WfPath (path : Path) : Bool :=
  if path.root then path.segments.isEmpty
  else !path.segments.isEmpty && path.segments.all WfSeg

/-- Well-formedness of a page declaration. -/
def WfPage (names : List String) (pg : PageDeclaration) : Bool :=
  identShape pg.name && WfPath pg.path && pg.parameters.all (WfParam names) && (pg.cst == none)

/-- Well-formedness of a document: every name an identifier, every stored
literal quoted, unions of size two or more, reference flags consistent with
the declared names, no CST contexts (the parser models none). -/
def WfDoc (doc : URLSpecDocument) : Bool :=
  let names := doc.paramTypes.map (fun pt => pt.name)
  (match doc.endpoint with
   | some u => innerOk u
   | none => true)
  && doc.paramTypes.all (fun pt => identShape pt.name && WfTy names pt.type && (pt.cst == none))
  && (match doc.global with
      | some ps => ps.all (WfParam names)
      | none => true)
  && doc.pages.all (WfPage names)

/-! ## Round-trip infrastructure

The erasure functions give the raw (pre-linking) form of a document, the
token functions the token sequence its canonical text lexes to, and the
char functions the canonical text itself as a character list; these are the
induction vehicles for the round-trip theorem (not part of the source). -/

/-- Clearing of the linker flag on a reference. -/
def eraseTy : Ty → Ty
  | Ty.ref nm _ => Ty.ref nm false
  | t => t

/-- Raw form of a parameter declaration. -/
def eraseParam (p : ParameterDeclaration) : ParameterDeclaration :=
  { p with type := eraseTy p.type }

/-- Raw form of a param-type declaration. -/
def erasePT (pt : ParamTypeDeclaration) : ParamTypeDeclaration :=
  { pt with type := eraseTy pt.type }

/-- Raw form of a page declaration. -/
def erasePage (pg : PageDeclaration) : PageDeclaration :=
  { pg with parameters := pg.parameters.map eraseParam }

/-- Raw form of a document (what the parser produces before linking). -/
def eraseDoc (doc : URLSpecDocument) : URLSpecDocument :=
  { endpoint := doc.endpoint,
    paramTypes := doc.paramTypes.map erasePT,
    global := doc.global.map (fun ps => ps.map eraseParam),
    pages := doc.pages.map erasePage }

/-- Interior of a stored quoted literal. -/
def unqVal (v : String) : String := String.mk v.data.tail.dropLast

/-- Pipe-separated token sequence. -/
def joinPipeToks : List Tok → List Tok
  | [] => []
  | [t] => [t]
  | t :: ts => t :: Tok.pipe :: joinPipeToks ts

/-- The tokens the canonical text of a type lexes to. -/
def tyToks : Ty → List Tok
  | Ty.stringKw => [Tok.ident "string"]
  | Ty.strLit v => [Tok.str (unqVal v)]
  | Ty.union vs => joinPipeToks (vs.map (fun v => Tok.str (unqVal v)))
  | Ty.ref nm _ => [Tok.ident nm]

/-- The tokens of one parameter entry line. -/
def entryToks (p : ParameterDeclaration) : List Tok :=
  Tok.ident p.name :: (if p.optional then [Tok.quest] else []) ++ [Tok.colon]
    ++ tyToks p.type ++ [Tok.semi]

/-- The tokens of one path segment. -/
def segToks (seg : PathSegment) : List Tok :=
  match seg.static, seg.parameter with
  | some s, _ => [Tok.pathSeg (String.mk s.data.tail)]
  | none, some nm => [Tok.slash, Tok.colon, Tok.ident nm]
  | none, none => []

/-- The tokens of a path. -/
def pathToks (path : Path) : List Tok :=
  if path.root then [Tok.slash] else (path.segments.map segToks).flatten

/-- The tokens of one declaration's canonical text. -/
def declToks : Decl → List Tok
  | Decl.endpointD u => [Tok.ident "endpoint", Tok.str u, Tok.semi]
  | Decl.paramTypeD pt => [Tok.ident "param", Tok.ident pt.name, Tok.eq]
      ++ tyToks pt.type ++ [Tok.semi]
  | Decl.globalD ps => [Tok.ident "global", Tok.lbrace]
      ++ (ps.map entryToks).flatten ++ [Tok.rbrace]
  | Decl.pageD pg => [Tok.ident "page", Tok.ident pg.name, Tok.eq]
      ++ pathToks pg.path ++ [Tok.lbrace]
      ++ (pg.parameters.map entryToks).flatten ++ [Tok.rbrace]

/-- The declaration list of a document, in canonical order, raw form. -/
def docDecls (doc : URLSpecDocument) : List Decl :=
  (match doc.endpoint with
   | some u => [Decl.endpointD u]
   | none => [])
  ++ doc.paramTypes.map (fun pt => Decl.paramTypeD (erasePT pt))
  ++ (match doc.global with
      | some ps => [Decl.globalD (ps.map eraseParam)]
      | none => [])
  ++ doc.pages.map (fun pg => Decl.pageD (erasePage pg))

/-- The tokens of a document's canonical text. -/
def docToks (doc : URLSpecDocument) : List Tok :=
  ((docDecls doc).map declToks).flatten

/-- One line of output as characters, newline included. -/
def lineChars (l : String) : List Char := l.data ++ ['\n']

/-- One section of output as characters. -/
def sectionChars (sec : List String) : List Char := (sec.map lineChars).flatten

/-- Sections joined with a blank line; the empty document prints a lone
newline. -/
def joinBlank : List (List String) → List Char
  | [] => ['\n']
  | [sec] => sectionChars sec
  | sec :: rest => sectionChars sec ++ '\n' :: joinBlank rest

/-- The canonical text as characters. -/
def docChars (doc : URLSpecDocument) : List Char := joinBlank (docSections doc)

/-- Well-formedness of a token as the lexer produces it. -/
def TokWf : Tok → Bool
  | Tok.ident s => identShape s
  | Tok.str s => innerOk s
  | Tok.pathSeg s => !s.data.isEmpty && s.data.all isPathChar
  | _ => true

/-- First character of the remaining text does not extend an identifier. -/
def headNotIdent (rest : List Char) : Bool :=
  match rest with
  | [] => true
  | c :: _ => !isIdentChar c

/-- First character of the remaining text does not extend a path segment or
start a comment. -/
def headNotPath (rest : List Char) : Bool :=
  match rest with
  | [] => true
  | c :: _ => !isPathChar c && c ≠ '/'

/-! ## Auxiliary definitions for the statements

Canonical shapes and concrete instances the theorems below refer to. -/

/-- The CST siblings of a contiguous run of line comments, one comment per
line, each line ended by its newline (the shape source text produces for a
block of `//` lines with no blank line inside). -/
def blockToks : List String → List CTok
  | [] => []
  | [t] => [CTok.comment t]
  | t :: ts => CTok.comment t :: CTok.ws "\n" :: blockToks ts

/-- The description a comment run yields: the stripped texts, blank comments
dropped, joined by newlines. -/
def blockText (ts : List String) : List String :=
  (ts.map stripComment).filter (fun s => s ≠ "")

/-- Naming-convention diagnostics (as opposed to path-coverage ones). -/
def isNamingDiag : Diagnostic → Bool
  | Diagnostic.paramTypeNaming _ => true
  | Diagnostic.pageNaming _ => true
  | Diagnostic.missingPathParam _ _ => false

/-- The cyclic alias pair of the spec's cycle-rejection example,
`param a = b; param b = a;`, as the linker leaves it (both references
resolve to the opposite declaration). -/
def cycDecls : List ParamTypeDeclaration :=
  [{ name := "a", type := Ty.ref "b" true, cst := none },
   { name := "b", type := Ty.ref "a" true, cst := none }]

/-- A document with the cyclic alias pair and a page parameter of type `a`. -/
def cycDoc : URLSpecDocument :=
  { endpoint := none, paramTypes := cycDecls, global := none,
    pages := [{ name := "p", path := { root := true, segments := [] },
                parameters := [{ name := "q", optional := false, type := Ty.ref "a" true, cst := none }],
                cst := none }] }

/-- A document declaring an endpoint (and one root page). -/
def epDoc : URLSpecDocument :=
  { endpoint := some "https://api.example.com", paramTypes := [], global := none,
    pages := [{ name := "home", path := { root := true, segments := [] },
                parameters := [], cst := none }] }

/-- The param-type declarations of the spec's alias-resolution example,
`param a = "x" | "y"; param b = a;`, as parsed and linked. -/
def aliasDecls : List ParamTypeDeclaration :=
  [{ name := "a", type := Ty.union ["\"x\"", "\"y\""], cst := none },
   { name := "b", type := Ty.ref "a" true, cst := none }]

/-- A builder-constructed document: `param a = "x" | "y"` and a page with a
parameter of type `a` through `createTypeReference` (so the reference is
unlinked). -/
def bldDoc : URLSpecDocument :=
  createURLSpecDocument
    [createParamTypeDeclaration "a" (createUnionType ["x", "y"])]
    none
    [createPageDeclaration "p" "/x" (some [createParameterDeclaration "s" (createTypeReference "a") false])]

/-- The parsed equivalent of `bldDoc`: same declarations as the parser
produces them (literal values quoted, the reference linked). -/
def prsDoc : URLSpecDocument :=
  { endpoint := none,
    paramTypes := [{ name := "a", type := Ty.union ["\"x\"", "\"y\""], cst := none }],
    global := none,
    pages := [{ name := "p",
                path := { root := false, segments := [{ static := some "/x", parameter := none }] },
                parameters := [{ name := "s", optional := false, type := Ty.ref "a" true, cst := none }],
                cst := none }] }

/-- The resolved model of `prsDoc`. -/
def prsRes : ResolvedURLSpec :=
  { paramTypes := [{ name := "a", type := ResolvedType.union ["x", "y"], description := none }],
    pages := [{ name := "p", path := "/x",
                pathSegments := [{ type := SegKind.static, value := "x" }],
                parameters := [{ name := "s", optional := false,
                                 type := ResolvedType.union ["x", "y"],
                                 source := ParamSource.page, description := none }],
                description := none }],
    global := none }

/-- A document with two global parameters and a page with two own
parameters (the spec's global-merge example). -/
def mergeDoc : URLSpecDocument :=
  { endpoint := none, paramTypes := [], global :=
      some [{ name := "g1", optional := true, type := Ty.stringKw, cst := none },
            { name := "g2", optional := false, type := Ty.stringKw, cst := none }],
    pages := [{ name := "list", path := { root := false, segments := [{ static := some "/jobs", parameter := none }] },
                parameters := [{ name := "p1", optional := false, type := Ty.stringKw, cst := none },
                               { name := "p2", optional := true, type := Ty.stringKw, cst := none }],
                cst := none }] }

/-- The resolved model of `mergeDoc`. -/
def mergeRes : ResolvedURLSpec :=
  { paramTypes := [],
    pages := [{ name := "list", path := "/jobs",
                pathSegments := [{ type := SegKind.static, value := "jobs" }],
                parameters :=
                  [{ name := "g1", optional := true, type := ResolvedType.string,
                     source := ParamSource.global, description := none },
                   { name := "g2", optional := false, type := ResolvedType.string,
                     source := ParamSource.global, description := none },
                   { name := "p1", optional := false, type := ResolvedType.string,
                     source := ParamSource.page, description := none },
                   { name := "p2", optional := true, type := ResolvedType.string,
                     source := ParamSource.page, description := none }],
                description := none }],
    global :=
      some [{ name := "g1", optional := true, type := ResolvedType.string,
              source := ParamSource.global, description := none },
            { name := "g2", optional := false, type := ResolvedType.string,
              source := ParamSource.global, description := none }] }

/-- A document whose global block declares zero parameters. -/
def egDoc : URLSpecDocument :=
  { endpoint := none, paramTypes := [], global := some [],
    pages := [{ name := "home", path := { root := true, segments := [] },
                parameters := [{ name := "q", optional := true, type := Ty.stringKw, cst := none }],
                cst := none }] }

/-- A page whose path has a `:job_id` parameter segment and no declared
parameters (the spec's path-coverage example). -/
def missingPage : PageDeclaration :=
  { name := "detail",
    path := { root := false, segments := [{ static := some "/jobs", parameter := none },
                                          { static := none, parameter := some "job_id" }] },
    parameters := [], cst := none }

/-- A document holding `missingPage`. -/
def missingDoc : URLSpecDocument :=
  { endpoint := none, paramTypes := [], global := none, pages := [missingPage] }

/-- A document whose parameters are named `job_id`, `jobId` and `JobId`
(all casings), with camelCase page and param-type names. -/
def casingDoc : URLSpecDocument :=
  { endpoint := none,
    paramTypes := [{ name := "sortOrder", type := Ty.strLit "\"a\"", cst := none }],
    global := some [{ name := "job_id", optional := true, type := Ty.stringKw, cst := none }],
    pages := [{ name := "detail", path := { root := true, segments := [] },
                parameters := [{ name := "jobId", optional := false, type := Ty.stringKw, cst := none },
                               { name := "JobId", optional := true, type := Ty.stringKw, cst := none }],
                cst := none }] }

/-! ## Round-trip machinery

A chunk relation for the lexer, a proof-free view of parse results, and the
raw (pre-linking) well-formedness predicates for parser output. -/

/-- A chunk of canonical text and the tokens it contributes: lexing the
chunk followed by any continuation yields those tokens in front of the
continuation's. -/
def LexChunk (cs : List Char) (ts : List Tok) : Prop :=
  ∀ rest, lex (cs ++ rest) = (lex rest).map (fun us => ts ++ us)

/-- Value-and-rest view of a parse result (the termination bound dropped). -/
def cOut {α : Type} {toks : List Tok} (c : Consumed α toks) : α × List Tok :=
  (c.val, c.rest)

/-- Raw well-formedness of a type as the parser emits it (pre-linking:
every reference flag still clear). -/
def WfTyRaw : Ty → Bool
  | Ty.stringKw => true
  | Ty.strLit v => quotedShape v
  | Ty.union vs => decide (2 ≤ vs.length) && vs.all quotedShape
  | Ty.ref nm linked => identShape nm && nm ≠ "string" && !linked

/-- Raw well-formedness of a parameter declaration. -/
def WfParamRaw (p : ParameterDeclaration) : Bool :=
  identShape p.name && WfTyRaw p.type && (p.cst == none)

/-- Raw well-formedness of a page declaration. -/
def WfPageRaw (pg : PageDeclaration) : Bool :=
  identShape pg.name && WfPath pg.path && pg.parameters.all WfParamRaw && (pg.cst == none)

/-- Raw well-formedness of a declaration statement. -/
def WfDeclRaw : Decl → Bool
  | Decl.endpointD u => innerOk u
  | Decl.paramTypeD pt => identShape pt.name && WfTyRaw pt.type && (pt.cst == none)
  | Decl.globalD ps => ps.all WfParamRaw
  | Decl.pageD pg => WfPageRaw pg

/-- Raw well-formedness of a document (parser output before linking). -/
def WfDocRaw (doc : URLSpecDocument) : Bool :=
  (match doc.endpoint with
   | some u => innerOk u
   | none => true)
  && doc.paramTypes.all (fun pt => identShape pt.name && WfTyRaw pt.type && (pt.cst == none))
  && (match doc.global with
      | some ps => ps.all WfParamRaw
      | none => true)
  && doc.pages.all WfPageRaw

/-! ## Description extraction: comment runs -/

theorem scanLevel_ws_notfound (w : String) (rest : List CTok) (acc : List String) :
    scanLevel (CTok.ws w :: rest) acc false = scanLevel rest acc false := by
  simp [scanLevel]

theorem blockText_cons (t : String) (ts : List String) :
    blockText (t :: ts) =
      (if stripComment t = "" then [] else [stripComment t]) ++ blockText ts := by
  simp [blockText]
  split <;> simp_all

theorem scanLevel_comment_step (t : String) (rest : List CTok) (acc : List String) (found : Bool) :
    scanLevel (CTok.comment t :: rest) acc found =
      scanLevel rest (if stripComment t = "" then acc else stripComment t :: acc) true := by
  simp only [scanLevel]

theorem scanLevel_block (ts : List String) (hne : ts ≠ []) :
    ∀ (pr : List CTok) (acc : List String) (found : Bool),
      scanLevel ((blockToks ts).reverse ++ pr) acc found =
        scanLevel pr (blockText ts ++ acc) true := by
  induction ts with
  | nil => exact absurd rfl hne
  | cons t ts ih =>
      intro pr acc found
      cases ts with
      | nil =>
          rw [show (blockToks [t]).reverse = [CTok.comment t] from rfl]
          rw [List.singleton_append, scanLevel_comment_step, blockText_cons]
          split <;> simp [blockText]
      | cons t2 ts2 =>
          have hrev : (blockToks (t :: t2 :: ts2)).reverse =
              (blockToks (t2 :: ts2)).reverse ++ [CTok.ws "\n", CTok.comment t] := by
            rw [show blockToks (t :: t2 :: ts2) =
              CTok.comment t :: CTok.ws "\n" :: blockToks (t2 :: ts2) from rfl]
            simp
          rw [hrev, List.append_assoc,
            ih (by simp) ([CTok.ws "\n", CTok.comment t] ++ pr) acc found]
          have hws : scanLevel ([CTok.ws "\n", CTok.comment t] ++ pr) (blockText (t2 :: ts2) ++ acc) true =
              scanLevel (CTok.comment t :: pr) (blockText (t2 :: ts2) ++ acc) true := by
            rw [show ([CTok.ws "\n", CTok.comment t] ++ pr) =
              CTok.ws "\n" :: CTok.comment t :: pr from rfl]
            simp only [scanLevel]
            rw [show countNewlines "\n" = 1 from rfl]
            simp
          rw [hws, scanLevel_comment_step, blockText_cons t (t2 :: ts2)]
          split <;> simp

/-- Amended description-extraction property, proved of `extractDescription`:
a declaration preceded by a contiguous run of line comments yields the run's
stripped texts (blank comments dropped) joined by newlines — and this holds
whether the whitespace between the comment block and the declaration is a
plain newline or contains a blank line: the blank line does *not* break the
association (`gap` is arbitrary whitespace).  A blank line strictly above
the comment block (or any other content there) ends the block. -/
theorem extract_block (ts : List String) (pre gap : List CTok) (outer : List (List CTok))
    (hts : blockText ts ≠ [])
    (hgap : gap = [] ∨ ∃ w, gap = [CTok.ws w])
    (hpre : pre = [] ∨ (∃ p, pre = p ++ [CTok.other]) ∨
      ∃ p w, pre = p ++ [CTok.ws w] ∧ 1 < countNewlines w) :
    extractDescription (some ((pre ++ blockToks ts ++ gap) :: outer)) =
      some (String.intercalate "\n" (blockText ts)) := by
  have hne : ts ≠ [] := by
    intro h
    rw [h] at hts
    exact hts rfl
  have hrev : (pre ++ blockToks ts ++ gap).reverse =
      gap.reverse ++ ((blockToks ts).reverse ++ pre.reverse) := by
    simp [List.reverse_append, List.append_assoc]
  have hscan : scanLevel (pre ++ blockToks ts ++ gap).reverse [] false =
      scanLevel pre.reverse (blockText ts) true := by
    rw [hrev]
    have hgapstep : scanLevel (gap.reverse ++ ((blockToks ts).reverse ++ pre.reverse)) [] false =
        scanLevel ((blockToks ts).reverse ++ pre.reverse) [] false := by
      rcases hgap with h | ⟨w, h⟩
      · rw [h]; rfl
      · rw [h]
        simp only [List.reverse_cons, List.reverse_nil, List.nil_append, List.singleton_append]
        exact scanLevel_ws_notfound w _ []
    rw [hgapstep, scanLevel_block ts hne pre.reverse [] false]
    simp
  have hfinal : scanLevel pre.reverse (blockText ts) true = blockText ts := by
    rcases hpre with h | ⟨p, h⟩ | ⟨p, w, h, hw⟩
    · rw [h]; rfl
    · rw [h]
      simp only [List.reverse_append, List.reverse_cons, List.reverse_nil, List.nil_append,
        List.singleton_append]
      rfl
    · rw [h]
      simp only [List.reverse_append, List.reverse_cons, List.reverse_nil, List.nil_append,
        List.singleton_append]
      simp [scanLevel, hw]
  simp only [extractDescription, extractLevels]
  rw [hscan, hfinal]
  simp [hts]

/-- C5, corrected — the claim as amended: a contiguous run of `//` comments
immediately above a declaration yields the stripped texts joined by
newlines; a blank line between the comment block and the declaration does
not break the association (the description is extracted all the same), while
a blank line (or any non-comment content) above the comment block ends the
block.  Blank comments contribute nothing. -/
theorem claim_C5_description_extraction (ts : List String) (pre gap : List CTok)
    (outer : List (List CTok)) (hts : blockText ts ≠ [])
    (hgap : gap = [] ∨ ∃ w, gap = [CTok.ws w])
    (hpre : pre = [] ∨ (∃ p, pre = p ++ [CTok.other]) ∨
      ∃ p w, pre = p ++ [CTok.ws w] ∧ 1 < countNewlines w) :
    extractDescription (some ((pre ++ blockToks ts ++ gap) :: outer)) =
      some (String.intercalate "\n" (blockText ts)) :=
  extract_block ts pre gap outer hts hgap hpre

/-- Witness for C5 at the spec's own example: the run `// Sort order`
followed by the declaration on the next line yields `Sort order`. -/
theorem claim_C5_witness :
    extractDescription (some (([] ++ blockToks ["// Sort order"] ++ [CTok.ws "\n"]) :: [])) =
      some (String.intercalate "\n" (blockText ["// Sort order"])) :=
  claim_C5_description_extraction ["// Sort order"] [] [CTok.ws "\n"] []
    (by decide) (Or.inr ⟨"\n", rfl⟩) (Or.inl rfl)

/-- Counterexample to C5 as stated: with a blank line between the comment
and the declaration (CST whitespace of two newlines) the claim says the
description is undefined, but `extractDescription` still returns the comment
text: the `foundNonWhitespace` guard of the source only fires above
already-collected comments. -/
theorem claim_C5_counterexample :
    extractDescription (some [[CTok.comment "// Sort order", CTok.ws "\n\n"]]) =
      some "Sort order" := by
  decide

/-! ## Cyclic type references (C1) -/

theorem cyc_fuelOut (n : Nat) :
    resolveType cycDecls n (Ty.ref "a" true) = Except.error ResolveError.fuelOut ∧
      resolveType cycDecls n (Ty.ref "b" true) = Except.error ResolveError.fuelOut := by
  induction n with
  | zero => exact ⟨rfl, rfl⟩
  | succ n ih =>
      refine ⟨?_, ?_⟩
      · show resolveType cycDecls (n + 1) (Ty.ref "a" true) = _
        have hstep : resolveType cycDecls (n + 1) (Ty.ref "a" true) =
            resolveType cycDecls n (Ty.ref "b" true) := rfl
        rw [hstep]
        exact ih.2
      · have hstep : resolveType cycDecls (n + 1) (Ty.ref "b" true) =
            resolveType cycDecls n (Ty.ref "a" true) := rfl
        rw [hstep]
        exact ih.1

/-- C1, code bug: on the cyclic chain `param a = b; param b = a;` the
resolver never produces any result — for every recursion bound it just
recurses deeper (`fuelOut`), so the TypeScript original recurses without
end (stack overflow).  In particular it never fails with a
cyclic-type-reference error: `ResolveError` has no such constructor because
the source has no such error path, contradicting the claimed behaviour. -/
theorem claim_C1_cycle_divergence :
    (∀ n, resolveType cycDecls n (Ty.ref "a" true) = Except.error ResolveError.fuelOut) ∧
      (∀ n, resolveType cycDecls n (Ty.ref "b" true) = Except.error ResolveError.fuelOut) ∧
      (∀ n, resolve n cycDoc = Except.error ResolveError.fuelOut) := by
  refine ⟨fun n => (cyc_fuelOut n).1, fun n => (cyc_fuelOut n).2, fun n => ?_⟩
  have hlist : cycDoc.paramTypes =
      ({ name := "a", type := Ty.ref "b" true, cst := none } : ParamTypeDeclaration) ::
        [{ name := "b", type := Ty.ref "a" true, cst := none }] := rfl
  have hb : resolveType
      (({ name := "a", type := Ty.ref "b" true, cst := none } : ParamTypeDeclaration) ::
        [{ name := "b", type := Ty.ref "a" true, cst := none }]) n (Ty.ref "b" true) =
      Except.error ResolveError.fuelOut := (cyc_fuelOut n).2
  unfold resolve
  rw [hlist, List.mapM_cons]
  simp [hb, bind, Except.bind]

/-! ## The endpoint attribute (C3) -/

/-- C3, code bug: the resolved model carries no endpoint.  `resolve` never
reads the document's endpoint (a document with one resolves to exactly the
same model as the same document without), and `ResolvedURLSpec` has no
endpoint attribute at all — its fields are `paramTypes`, `pages` and
`global` — contradicting the claim (and the package README, which documents
an `endpoint` attribute on the resolved type). -/
theorem claim_C3_endpoint_dropped :
    (∀ (fuel : Nat) (doc : URLSpecDocument),
        resolve fuel { doc with endpoint := none } = resolve fuel doc) ∧
      epDoc.endpoint = some "https://api.example.com" ∧
      (∀ n, resolve n epDoc =
        Except.ok { paramTypes := [],
                    pages := [{ name := "home", path := "/", pathSegments := [],
                                parameters := [], description := none }],
                    global := none }) := by
  refine ⟨fun fuel doc => ?_, rfl, fun n => rfl⟩
  cases doc
  rfl

/-! ## Multi-hop alias resolution (C7) -/

theorem resolveType_union (decls : List ParamTypeDeclaration) (fuel : Nat) (vs : List String) :
    resolveType decls fuel (Ty.union vs) = Except.ok (ResolvedType.union (vs.map stripQuotes)) := by
  cases fuel <;> rfl

theorem resolveType_ref_succ (decls : List ParamTypeDeclaration) (f : Nat) (nm : String)
    (d : ParamTypeDeclaration) (h : lookupParamType decls nm = some d) :
    resolveType decls (f + 1) (Ty.ref nm true) = resolveType decls f d.type := by
  simp [resolveType, h]

theorem resolveType_ref_unlinked (decls : List ParamTypeDeclaration) (fuel : Nat) (nm : String) :
    resolveType decls fuel (Ty.ref nm false) = Except.error (ResolveError.unresolvedRef nm) := by
  simp [resolveType]

/-- C7, confirmed: with `param a = "x" | "y"; param b = a;` a parameter of
type `b` resolves through both hops to the union type with values `x`, `y`
(quotes stripped); the resolved type is never itself a reference.  `n + 2`
is any recursion budget large enough for the two hops. -/
theorem claim_C7_alias_resolution (n : Nat) (p : ParameterDeclaration) (src : ParamSource)
    (h : p.type = Ty.ref "b" true) :
    resolveParameter aliasDecls (n + 2) p src =
      Except.ok { name := p.name, optional := p.optional,
                  type := ResolvedType.union ["x", "y"], source := src,
                  description := extractDescription p.cst } := by
  have h1 : resolveType aliasDecls (n + 2) (Ty.ref "b" true) =
      Except.ok (ResolvedType.union ["x", "y"]) := by
    rw [show (n + 2) = (n + 1) + 1 from rfl,
      resolveType_ref_succ aliasDecls (n + 1) "b"
        { name := "b", type := Ty.ref "a" true, cst := none } rfl]
    rw [resolveType_ref_succ aliasDecls n "a"
        { name := "a", type := Ty.union ["\"x\"", "\"y\""], cst := none } rfl]
    rw [resolveType_union]
    rfl
  unfold resolveParameter
  rw [h, h1]
  rfl

/-- Witness for C7 at a concrete parameter. -/
theorem claim_C7_witness :
    resolveParameter aliasDecls 2
      { name := "sort", optional := false, type := Ty.ref "b" true, cst := none }
      ParamSource.page =
      Except.ok { name := "sort", optional := false,
                  type := ResolvedType.union ["x", "y"], source := ParamSource.page,
                  description := none } :=
  claim_C7_alias_resolution 0
    { name := "sort", optional := false, type := Ty.ref "b" true, cst := none }
    ParamSource.page rfl

/-! ## Resolver structure: global merge -/

theorem except_bind_ok {ε α β : Type} {e : Except ε α} {f : α → Except ε β} {b : β}
    (h : e >>= f = Except.ok b) : ∃ a, e = Except.ok a ∧ f a = Except.ok b := by
  cases e with
  | error err => simp [Bind.bind, Except.bind] at h
  | ok a => exact ⟨a, rfl, by simpa [Bind.bind, Except.bind] using h⟩

theorem except_mapM_nil {ε α β : Type} (f : α → Except ε β) :
    List.mapM f [] = Except.ok [] := rfl

theorem mapM_except_ok {ε α β : Type} {f : α → Except ε β} :
    ∀ {l : List α} {r : List β}, l.mapM f = Except.ok r →
      r.length = l.length ∧
        ∀ i (hi : i < l.length) (hri : i < r.length), f l[i] = Except.ok r[i] := by
  intro l
  induction l with
  | nil =>
      intro r h
      rw [except_mapM_nil] at h
      have hr : [] = r := Except.ok.inj h
      subst hr
      exact ⟨rfl, fun i hi hri => absurd hi (by simp)⟩
  | cons a l ih =>
      intro r h
      rw [List.mapM_cons] at h
      obtain ⟨x, hx, h2⟩ := except_bind_ok h
      obtain ⟨xs, hxs, h3⟩ := except_bind_ok h2
      have hr : r = x :: xs := by
        simpa [pure, Except.pure] using h3.symm
      subst hr
      obtain ⟨hlen, helem⟩ := ih hxs
      refine ⟨by simp [hlen], fun i hi hri => ?_⟩
      cases i with
      | zero => simpa using hx
      | succ j =>
          have hj : j < l.length := by simpa using hi
          have hjr : j < xs.length := by simpa using hri
          simpa using helem j hj hjr

theorem mapM_except_forall {ε α β : Type} {f : α → Except ε β} {P : β → Prop}
    (hP : ∀ a b, f a = Except.ok b → P b) :
    ∀ {l : List α} {r : List β}, l.mapM f = Except.ok r → ∀ b ∈ r, P b := by
  intro l
  induction l with
  | nil =>
      intro r h b hb
      rw [except_mapM_nil] at h
      have hr : [] = r := Except.ok.inj h
      subst hr
      simp at hb
  | cons a l ih =>
      intro r h b hb
      rw [List.mapM_cons] at h
      obtain ⟨x, hx, h2⟩ := except_bind_ok h
      obtain ⟨xs, hxs, h3⟩ := except_bind_ok h2
      have hr : r = x :: xs := by
        simpa [pure, Except.pure] using h3.symm
      subst hr
      rcases List.mem_cons.mp hb with h | h
      · exact h ▸ hP a x hx
      · exact ih hxs b h

theorem resolveParameter_fields {decls : List ParamTypeDeclaration} {fuel : Nat}
    {p : ParameterDeclaration} {src : ParamSource} {rp : ResolvedParameter}
    (h : resolveParameter decls fuel p src = Except.ok rp) :
    rp.source = src ∧ rp.name = p.name ∧ rp.optional = p.optional := by
  unfold resolveParameter at h
  obtain ⟨t, ht, h2⟩ := except_bind_ok h
  have : rp = { name := p.name, optional := p.optional, type := t, source := src,
                description := extractDescription p.cst } := by
    simpa [pure, Except.pure] using h2.symm
  subst this
  exact ⟨rfl, rfl, rfl⟩

theorem resolvePage_ok {decls : List ParamTypeDeclaration} {fuel : Nat}
    {gs : List ResolvedParameter} {page : PageDeclaration} {rp : ResolvedPage}
    (h : resolvePage decls fuel gs page = Except.ok rp) :
    ∃ own, page.parameters.mapM (fun p => resolveParameter decls fuel p ParamSource.page) =
        Except.ok own ∧ rp.parameters = gs ++ own ∧ rp.name = page.name := by
  unfold resolvePage at h
  split at h
  · obtain ⟨own, hown, h2⟩ := except_bind_ok h
    refine ⟨own, hown, ?_⟩
    have : rp = { name := page.name, path := "/", pathSegments := [],
                  parameters := gs ++ own, description := extractDescription page.cst } := by
      simpa [pure, Except.pure] using h2.symm
    subst this
    exact ⟨rfl, rfl⟩
  · obtain ⟨segs, hsegs, h2⟩ := except_bind_ok h
    obtain ⟨own, hown, h3⟩ := except_bind_ok h2
    refine ⟨own, hown, ?_⟩
    have : rp = { name := page.name,
                  path := String.join (segs.map (fun s =>
                    match s.type with
                    | SegKind.static => "/" ++ s.value
                    | SegKind.parameter => "/:" ++ s.value)),
                  pathSegments := segs, parameters := gs ++ own,
                  description := extractDescription page.cst } := by
      simpa [pure, Except.pure] using h3.symm
    subst this
    exact ⟨rfl, rfl⟩

theorem resolve_ok_parts {fuel : Nat} {doc : URLSpecDocument} {res : ResolvedURLSpec}
    (h : resolve fuel doc = Except.ok res) :
    ∃ pts gs rps,
      doc.paramTypes.mapM (fun pt => do
          let t ← resolveType doc.paramTypes fuel pt.type
          pure { name := pt.name, type := t,
                 description := extractDescription pt.cst : ResolvedParamType }) = Except.ok pts ∧
      (doc.global.getD []).mapM
          (fun p => resolveParameter doc.paramTypes fuel p ParamSource.global) = Except.ok gs ∧
      doc.pages.mapM (fun page => resolvePage doc.paramTypes fuel gs page) = Except.ok rps ∧
      res = { paramTypes := pts, pages := rps,
              global := if gs.length > 0 then some gs else none } := by
  unfold resolve at h
  obtain ⟨pts, hpts, h2⟩ := except_bind_ok h
  obtain ⟨gs, hgs, h3⟩ := except_bind_ok h2
  obtain ⟨rps, hrps, h4⟩ := except_bind_ok h3
  refine ⟨pts, gs, rps, hpts, ?_, hrps, by simpa [pure, Except.pure] using h4.symm⟩
  cases hg : doc.global with
  | none =>
      rw [hg] at hgs
      have h0 : (Except.ok [] : Except ResolveError (List ResolvedParameter)) = Except.ok gs := hgs
      have hgs0 : gs = [] := (Except.ok.inj h0).symm
      subst hgs0
      exact except_mapM_nil _
  | some ps =>
      rw [hg] at hgs
      exact hgs


theorem global_merge_aux (fuel : Nat) (doc : URLSpecDocument) (res : ResolvedURLSpec)
    (h : resolve fuel doc = Except.ok res) :
    ∃ gs, (doc.global.getD []).mapM
        (fun p => resolveParameter doc.paramTypes fuel p ParamSource.global) = Except.ok gs
      ∧ (∀ g ∈ gs, g.source = ParamSource.global)
      ∧ (doc.global = none → gs = [])
      ∧ gs.length = (doc.global.getD []).length
      ∧ res.global = (if gs.length > 0 then some gs else none)
      ∧ res.pages.length = doc.pages.length
      ∧ ∀ i (hi : i < doc.pages.length) (hri : i < res.pages.length),
          ∃ own, (doc.pages[i]).parameters.mapM
              (fun p => resolveParameter doc.paramTypes fuel p ParamSource.page) = Except.ok own
            ∧ (∀ p ∈ own, p.source = ParamSource.page)
            ∧ own.length = (doc.pages[i]).parameters.length
            ∧ (res.pages[i]).parameters = gs ++ own := by
  obtain ⟨pts, gs, rps, hpts, hgs, hrps, hres⟩ := resolve_ok_parts h
  subst hres
  refine ⟨gs, hgs, ?_, ?_, (mapM_except_ok hgs).1, rfl, ?_, ?_⟩
  · exact mapM_except_forall (fun p rp hp => (resolveParameter_fields hp).1) hgs
  · intro hnone
    rw [hnone] at hgs
    have h0 : (Except.ok [] : Except ResolveError (List ResolvedParameter)) = Except.ok gs := hgs
    exact (Except.ok.inj h0).symm
  · exact (mapM_except_ok hrps).1
  · intro i hi hri
    have hri2 : i < rps.length := hri
    have hpage := (mapM_except_ok hrps).2 i hi hri2
    obtain ⟨own, hown, hpar, _⟩ := resolvePage_ok hpage
    exact ⟨own, hown,
      mapM_except_forall (fun p rp hp => (resolveParameter_fields hp).1) hown,
      (mapM_except_ok hown).1, hpar⟩

/-- C6, confirmed: when `resolve` succeeds, the global parameters are the
document's global block resolved in declared order (each tagged
`source = global`, empty when there is no block), and every page's resolved
parameter list is exactly that global list followed by the page's own
parameters resolved in declared order (each tagged `source = page`). -/
theorem claim_C6_global_merge (fuel : Nat) (doc : URLSpecDocument) (res : ResolvedURLSpec)
    (h : resolve fuel doc = Except.ok res) :
    ∃ gs, (doc.global.getD []).mapM
        (fun p => resolveParameter doc.paramTypes fuel p ParamSource.global) = Except.ok gs
      ∧ (∀ g ∈ gs, g.source = ParamSource.global)
      ∧ (doc.global = none → gs = [])
      ∧ gs.length = (doc.global.getD []).length
      ∧ res.global = (if gs.length > 0 then some gs else none)
      ∧ res.pages.length = doc.pages.length
      ∧ ∀ i (hi : i < doc.pages.length) (hri : i < res.pages.length),
          ∃ own, (doc.pages[i]).parameters.mapM
              (fun p => resolveParameter doc.paramTypes fuel p ParamSource.page) = Except.ok own
            ∧ (∀ p ∈ own, p.source = ParamSource.page)
            ∧ own.length = (doc.pages[i]).parameters.length
            ∧ (res.pages[i]).parameters = gs ++ own :=
  global_merge_aux fuel doc res h

/-- Witness for C6 at the spec's example: globals `[g1, g2]` and a page
with own parameters `[p1, p2]` resolve to `[g1, g2, p1, p2]` with matching
source tags. -/
theorem claim_C6_witness :
    (resolve 1 mergeDoc = Except.ok mergeRes) ∧
    ∃ gs, (mergeDoc.global.getD []).mapM
        (fun p => resolveParameter mergeDoc.paramTypes 1 p ParamSource.global) = Except.ok gs
      ∧ (∀ g ∈ gs, g.source = ParamSource.global)
      ∧ mergeRes.global = (if gs.length > 0 then some gs else none)
      ∧ ∀ i (hi : i < mergeDoc.pages.length) (hri : i < mergeRes.pages.length),
          ∃ own, (mergeDoc.pages[i]).parameters.mapM
              (fun p => resolveParameter mergeDoc.paramTypes 1 p ParamSource.page) = Except.ok own
            ∧ (mergeRes.pages[i]).parameters = gs ++ own := by
  have hres : resolve 1 mergeDoc = Except.ok mergeRes := rfl
  obtain ⟨gs, h1, h2, h3, h4, h5, h6, h7⟩ := claim_C6_global_merge 1 mergeDoc mergeRes hres
  exact ⟨hres, gs, h1, h2, h5, fun i hi hri => (h7 i hi hri).imp
    (fun own ho => ⟨ho.1, ho.2.2.2⟩)⟩

/-! ## Empty global block (C10) -/

/-- C10, confirmed: a document whose global block declares zero parameters
resolves to exactly the same model as the same document with no global block
at all; the resulting `global` attribute is `none` and every page's resolved
parameter list consists of the page's own parameters only. -/
theorem claim_C10_empty_global (fuel : Nat) (doc : URLSpecDocument) (h : doc.global = some []) :
    resolve fuel doc = resolve fuel { doc with global := none }
    ∧ ∀ res, resolve fuel doc = Except.ok res →
        res.global = none
        ∧ res.pages.length = doc.pages.length
        ∧ ∀ i (hi : i < doc.pages.length) (hri : i < res.pages.length),
            ∃ own, (doc.pages[i]).parameters.mapM
                (fun p => resolveParameter doc.paramTypes fuel p ParamSource.page) = Except.ok own
              ∧ (res.pages[i]).parameters = own := by
  constructor
  · obtain ⟨e, pts, g, pgs⟩ := doc
    simp only at h
    subst h
    rfl
  · intro res hres
    obtain ⟨gs, hgs, _, _, _, hgl, hplen, hpages⟩ := global_merge_aux fuel doc res hres
    have hgs0 : gs = [] := by
      rw [h] at hgs
      have h0 : (Except.ok [] : Except ResolveError (List ResolvedParameter)) = Except.ok gs := hgs
      exact (Except.ok.inj h0).symm
    refine ⟨?_, hplen, fun i hi hri => ?_⟩
    · rw [hgl, hgs0]
      simp
    · obtain ⟨own, hown, _, _, hpar⟩ := hpages i hi hri
      exact ⟨own, hown, by rw [hpar, hgs0]; simp⟩

/-! ## Validator: path-parameter coverage (C8) -/

theorem insertUnique_mem (acc : List String) (x y : String) :
    y ∈ insertUnique acc x ↔ y ∈ acc ∨ y = x := by
  unfold insertUnique
  split
  · rename_i hc
    have hx : x ∈ acc := by
      simpa using hc
    constructor
    · exact Or.inl
    · rintro (h | h)
      · exact h
      · exact h ▸ hx
  · simp

theorem insertUnique_nodup (acc : List String) (x : String) (h : acc.Nodup) :
    (insertUnique acc x).Nodup := by
  unfold insertUnique
  split
  · exact h
  · rename_i hc
    have hx : x ∉ acc := by
      simpa using hc
    simp [List.nodup_append, h, hx]

theorem foldl_insertUnique_mem (l : List String) :
    ∀ (acc : List String) (y : String), y ∈ l.foldl insertUnique acc ↔ y ∈ acc ∨ y ∈ l := by
  induction l with
  | nil => intro acc y; simp
  | cons a l ih =>
      intro acc y
      rw [List.foldl_cons, ih, insertUnique_mem]
      simp
      tauto

theorem foldl_insertUnique_nodup (l : List String) :
    ∀ (acc : List String), acc.Nodup → (l.foldl insertUnique acc).Nodup := by
  induction l with
  | nil => intro acc h; exact h
  | cons a l ih =>
      intro acc h
      exact ih _ (insertUnique_nodup acc a h)

theorem pathParamNames_mem (segments : List PathSegment) (x : String) :
    x ∈ pathParamNames segments ↔
      ∃ seg ∈ segments, seg.parameter = some x ∧ x ≠ "" := by
  unfold pathParamNames
  rw [foldl_insertUnique_mem]
  simp only [List.not_mem_nil, false_or, List.mem_filterMap]
  constructor
  · rintro ⟨seg, hseg, hsome⟩
    by_cases ht : truthy seg.parameter
    · rw [if_pos ht] at hsome
      refine ⟨seg, hseg, hsome, ?_⟩
      intro hx
      cases hp : seg.parameter with
      | none => rw [hp] at hsome; exact Option.noConfusion hsome
      | some s =>
          rw [hp] at hsome ht
          have : s = x := Option.some.inj hsome
          subst this
          subst hx
          simp [truthy] at ht
    · rw [if_neg ht] at hsome
      exact Option.noConfusion hsome
  · rintro ⟨seg, hseg, hsome, hx⟩
    refine ⟨seg, hseg, ?_⟩
    have ht : truthy seg.parameter := by
      rw [hsome]
      simpa [truthy] using hx
    rw [if_pos ht, hsome]

theorem pathParamNames_nodup (segments : List PathSegment) :
    (pathParamNames segments).Nodup :=
  foldl_insertUnique_nodup _ [] List.nodup_nil

theorem missingPathParam_count (page : PageDeclaration) (x : String) :
    (checkPageDeclaration page).count (Diagnostic.missingPathParam page.name x) =
      if x ∈ pathParamNames page.path.segments ∧
          x ∉ page.parameters.map (fun p => p.name) then 1 else 0 := by
  unfold checkPageDeclaration
  rw [List.count_append]
  have hname : (if isCamelCase page.name then []
      else [Diagnostic.pageNaming page.name]).count (Diagnostic.missingPathParam page.name x) = 0 := by
    split <;> simp [List.count_cons, List.count_nil]
  rw [hname, Nat.zero_add]
  have hinj : Function.Injective (fun y => Diagnostic.missingPathParam page.name y) := by
    intro a b hab
    simpa using hab
  rw [List.count_map_of_injective _ _ hinj]
  by_cases hc : x ∈ pathParamNames page.path.segments ∧
      x ∉ page.parameters.map (fun p => p.name)
  · rw [if_pos hc]
    apply List.count_eq_one_of_mem
    · exact (pathParamNames_nodup _).filter _
    · rw [List.mem_filter]
      refine ⟨hc.1, ?_⟩
      simpa using hc.2
  · rw [if_neg hc]
    rw [List.count_eq_zero]
    intro hmem
    rw [List.mem_filter] at hmem
    exact hc ⟨hmem.1, by simpa using hmem.2⟩

/-- C8, confirmed: every `:name` path-parameter segment of a page whose name
is not among the page's declared parameter names produces exactly one
`Path parameter must be declared` error naming it (one per missing name,
the segment set being deduplicated); the error reaches `validate`'s output;
and adding a parameter declaration with that exact name removes the error. -/
theorem claim_C8_path_param_coverage (doc : URLSpecDocument) (page : PageDeclaration) (x : String)
    (hmem : page ∈ doc.pages)
    (hx : x ∈ pathParamNames page.path.segments)
    (hmiss : x ∉ page.parameters.map (fun p => p.name)) :
    (x ∈ pathParamNames page.path.segments ↔
        ∃ seg ∈ page.path.segments, seg.parameter = some x ∧ x ≠ "")
    ∧ (checkPageDeclaration page).count (Diagnostic.missingPathParam page.name x) = 1
    ∧ Diagnostic.missingPathParam page.name x ∈ validate doc
    ∧ ∀ d : ParameterDeclaration, d.name = x →
        (checkPageDeclaration { page with parameters := page.parameters ++ [d] }).count
          (Diagnostic.missingPathParam page.name x) = 0 := by
  have hcount : (checkPageDeclaration page).count (Diagnostic.missingPathParam page.name x) = 1 := by
    rw [missingPathParam_count, if_pos ⟨hx, hmiss⟩]
  refine ⟨pathParamNames_mem _ _, hcount, ?_, ?_⟩
  · have hd : Diagnostic.missingPathParam page.name x ∈ checkPageDeclaration page :=
      List.count_pos_iff_mem.mp (by rw [hcount]; omega)
    unfold validate
    rw [List.mem_append]
    right
    rw [List.mem_flatten]
    exact ⟨checkPageDeclaration page, List.mem_map_of_mem _ hmem, hd⟩
  · intro d hd
    have h0 := missingPathParam_count { page with parameters := page.parameters ++ [d] } x
    rw [if_neg] at h0
    · exact h0
    · rintro ⟨-, habs⟩
      exact habs (by simp [hd])

/-- Witness for C8 at the spec's example `page detail = /jobs/:job_id { }`. -/
theorem claim_C8_witness :
    ("job_id" ∈ pathParamNames missingPage.path.segments ↔
        ∃ seg ∈ missingPage.path.segments, seg.parameter = some "job_id" ∧ "job_id" ≠ "")
    ∧ (checkPageDeclaration missingPage).count
        (Diagnostic.missingPathParam missingPage.name "job_id") = 1
    ∧ Diagnostic.missingPathParam missingPage.name "job_id" ∈ validate missingDoc
    ∧ ∀ d : ParameterDeclaration, d.name = "job_id" →
        (checkPageDeclaration { missingPage with parameters := missingPage.parameters ++ [d] }).count
          (Diagnostic.missingPathParam missingPage.name "job_id") = 0 :=
  claim_C8_path_param_coverage missingDoc missingPage "job_id"
    (by simp [missingDoc]) (by decide) (by decide)

/-! ## Validator: naming conventions (C9) -/

theorem filter_naming_checkPage (pg : PageDeclaration) :
    (checkPageDeclaration pg).filter isNamingDiag =
      if isCamelCase pg.name then [] else [Diagnostic.pageNaming pg.name] := by
  unfold checkPageDeclaration
  rw [List.filter_append]
  have h2 : (((pathParamNames pg.path.segments).filter
      (fun x => !(pg.parameters.map (fun p => p.name)).contains x)).map
        (fun x => Diagnostic.missingPathParam pg.name x)).filter isNamingDiag = [] := by
    rw [List.filter_map]
    rw [show (isNamingDiag ∘ fun x => Diagnostic.missingPathParam pg.name x) =
      (fun _ => false) from rfl]
    simp
  rw [h2, List.append_nil]
  split <;> simp [isNamingDiag]

/-- C9, confirmed: the naming errors `validate` emits are exactly one
param-type-naming error per `ParamTypeDeclaration` name failing the
camelCase pattern and one page-naming error per `PageDeclaration` name
failing it, in declaration order; parameter declarations are never
name-checked (the output is independent of the global block, and the
all-casings document `casingDoc` — parameter names `job_id`, `jobId`,
`JobId` — validates with no diagnostics at all). -/
theorem claim_C9_naming (doc : URLSpecDocument) :
    ((validate doc).filter isNamingDiag =
      ((doc.paramTypes.map (fun pt => pt.name)).filter
          (fun n => !isCamelCase n)).map Diagnostic.paramTypeNaming
        ++ ((doc.pages.map (fun pg => pg.name)).filter
          (fun n => !isCamelCase n)).map Diagnostic.pageNaming)
    ∧ (∀ g, validate { doc with global := g } = validate doc)
    ∧ validate casingDoc = [] := by
  refine ⟨?_, ?_, by rfl⟩
  · unfold validate
    rw [List.filter_append]
    congr 1
    · induction doc.paramTypes with
      | nil => rfl
      | cons pt rest ih =>
          rw [List.map_cons, List.flatten_cons, List.filter_append, ih]
          rw [List.map_cons]
          unfold checkParamTypeNaming
          split
          · rename_i hcam
            simp [hcam]
          · rename_i hcam
            simp [hcam, isNamingDiag]
    · induction doc.pages with
      | nil => rfl
      | cons pg rest ih =>
          rw [List.map_cons, List.flatten_cons, List.filter_append, ih]
          rw [List.map_cons, filter_naming_checkPage]
          split
          · rename_i hcam
            simp [hcam]
          · rename_i hcam
            simp [hcam]
  · intro g
    cases doc
    rfl

/-- Witness for C10 at a concrete document with an empty global block. -/
theorem claim_C10_witness :
    resolve 1 egDoc = resolve 1 { egDoc with global := none }
    ∧ ∀ res, resolve 1 egDoc = Except.ok res →
        res.global = none
        ∧ res.pages.length = egDoc.pages.length
        ∧ ∀ i (hi : i < egDoc.pages.length) (hri : i < res.pages.length),
            ∃ own, (egDoc.pages[i]).parameters.mapM
                (fun p => resolveParameter egDoc.paramTypes 1 p ParamSource.page) = Except.ok own
              ∧ (res.pages[i]).parameters = own :=
  claim_C10_empty_global 1 egDoc rfl

/-! ## Builder documents and the resolver (C4) -/

/-- Counterexample to C4 as stated: `bldDoc` (built with the AST builder:
`param a = "x" | "y"` and a page parameter of type `a` via
`createTypeReference`) prints to exactly the canonical text of its parsed
equivalent `prsDoc` and declares the referenced name, yet `resolve` fails on
it with an unresolved-type-reference error, while the parsed equivalent
resolves to the union type — the builder-created reference is not
dereferenced to the same `ResolvedType`. -/
theorem claim_C4_counterexample :
    resolve 2 bldDoc = Except.error (ResolveError.unresolvedRef "a")
    ∧ resolve 2 prsDoc = Except.ok prsRes
    ∧ print bldDoc = print prsDoc
    ∧ bldDoc.paramTypes.map (fun pt => pt.name) = ["a"] :=
  ⟨rfl, rfl, rfl, rfl⟩

/-- C4, corrected — the claim as amended: a builder-constructed document is
interchangeable with its parsed equivalent for the Validator and the
Printer, but not for the Resolver: `createTypeReference` leaves the
reference unlinked (no `ref.ref`), so `resolveType` throws an
unresolved-type-reference error on every builder-created reference, whatever
the declared param types, instead of dereferencing it. -/
theorem claim_C4_builder_interchange :
    (∀ (decls : List ParamTypeDeclaration) (fuel : Nat) (nm : String),
        resolveType decls fuel (createTypeReference nm) =
          Except.error (ResolveError.unresolvedRef nm))
    ∧ validate bldDoc = validate prsDoc
    ∧ print bldDoc = print prsDoc
    ∧ resolve 2 prsDoc = Except.ok prsRes := by
  refine ⟨fun decls fuel nm => ?_, rfl, rfl, rfl⟩
  rw [show createTypeReference nm = Ty.ref nm false from rfl]
  exact resolveType_ref_unlinked decls fuel nm

/-! ## Lexer chunk lemmas -/

theorem takeWhile_append_all (p : Char → Bool) (l r : List Char) (hl : l.all p = true)
    (hr : ∀ c, r.head? = some c → p c = false) :
    (l ++ r).takeWhile p = l ∧ (l ++ r).dropWhile p = r := by
  induction l with
  | nil =>
      simp only [List.nil_append]
      cases r with
      | nil => simp
      | cons c r2 =>
          have hc := hr c rfl
          simp [List.takeWhile_cons, List.dropWhile_cons, hc]
  | cons c l2 ih =>
      simp only [List.all_cons, Bool.and_eq_true] at hl
      have h2 := ih hl.2
      simp [List.takeWhile_cons, List.dropWhile_cons, hl.1, h2.1, h2.2]

theorem ws_cases (c : Char) (h : isWsChar c = true) :
    c = ' ' ∨ c = '\n' ∨ c = '\t' ∨ c = '\r' := by
  have h2 := h
  simp [isWsChar] at h2
  tauto

theorem identStart_not_ws (c : Char) (h : isIdentStart c = true) : isWsChar c = false := by
  cases hw : isWsChar c with
  | false => rfl
  | true =>
      rcases ws_cases c hw with h1 | h1 | h1 | h1 <;> (subst h1; exact absurd h (by decide))

theorem identStart_ne_slash (c : Char) (h : isIdentStart c = true) : ¬(c = '/') := by
  intro he; subst he; exact absurd h (by decide)

theorem identStart_ne_quote (c : Char) (h : isIdentStart c = true) : ¬(c = '"') := by
  intro he; subst he; exact absurd h (by decide)

theorem pathChar_ne_slash (c : Char) (h : isPathChar c = true) : ¬(c = '/') := by
  intro he; subst he; exact absurd h (by decide)

theorem lex_ws_cons (c : Char) (cs : List Char) (h : isWsChar c = true) :
    lex (c :: cs) = lex cs := by
  rw [lex.eq_def]
  simp [h]

theorem lex_ident_chunk (c : Char) (body rest : List Char) (hc : isIdentStart c = true)
    (hb : body.all isIdentChar = true) (hr : ∀ d, rest.head? = some d → isIdentChar d = false) :
    lex (c :: (body ++ rest)) =
      (lex rest).map (fun ts => Tok.ident (String.mk (c :: body)) :: ts) := by
  have hspan := takeWhile_append_all isIdentChar body rest hb hr
  rw [lex.eq_def]
  simp [identStart_not_ws c hc, identStart_ne_slash c hc, identStart_ne_quote c hc, hc,
    hspan.1, hspan.2]

theorem lex_str_chunk_aux (s rest : List Char) (hs : s.all (fun d => d ≠ '"') = true) :
    lex ('"' :: (s ++ '"' :: rest)) =
      (lex rest).map (fun ts => Tok.str (String.mk s) :: ts) := by
  have hspan := takeWhile_append_all (fun d => decide (d ≠ '"')) s ('"' :: rest)
    (by simpa using hs) (by intro d hd; simp at hd; subst hd; simp)
  have hlt : ((s ++ '"' :: rest).takeWhile (fun d => decide (d ≠ '"'))).length
      < (s ++ '"' :: rest).length := by
    rw [hspan.1]; simp
  have hdrop : (s ++ '"' :: rest).drop (s.length + 1) = rest := by
    rw [show s ++ '"' :: rest = (s ++ ['"']) ++ rest by simp,
      show s.length + 1 = (s ++ ['"']).length by simp, List.drop_left]
  rw [lex.eq_def]
  simp only [show ¬('"' = '/') by decide, show isWsChar '"' = false by decide,
    Bool.false_eq_true, if_false, reduceIte, dif_pos hlt, hspan.1, hdrop]
  rw [dif_pos (by simp only [List.length_append, List.length_cons]; omega)]

theorem lex_pathSeg_chunk (d : Char) (body rest : List Char) (hd : isPathChar d = true)
    (hb : body.all isPathChar = true) (hr : ∀ e, rest.head? = some e → isPathChar e = false) :
    lex ('/' :: d :: (body ++ rest)) =
      (lex rest).map (fun ts => Tok.pathSeg (String.mk (d :: body)) :: ts) := by
  have hspan := takeWhile_append_all isPathChar body rest hb hr
  rw [lex.eq_def]
  simp [show isWsChar '/' = false by decide, pathChar_ne_slash d hd, hd, hspan.1, hspan.2]

theorem lex_slash_cons (c : Char) (cs : List Char) (hp : isPathChar c = false)
    (hs : ¬(c = '/')) :
    lex ('/' :: c :: cs) = (lex (c :: cs)).map (fun ts => Tok.slash :: ts) := by
  rw [lex.eq_def]
  simp [show isWsChar '/' = false by decide, hs, hp]

theorem lex_lbrace (cs : List Char) :
    lex ('\x7b' :: cs) = (lex cs).map (fun ts => Tok.lbrace :: ts) := by
  rw [lex.eq_def]; rfl

theorem lex_rbrace (cs : List Char) :
    lex ('\x7d' :: cs) = (lex cs).map (fun ts => Tok.rbrace :: ts) := by
  rw [lex.eq_def]; rfl

theorem lex_eq_tok (cs : List Char) :
    lex ('=' :: cs) = (lex cs).map (fun ts => Tok.eq :: ts) := by
  rw [lex.eq_def]; rfl

theorem lex_semi (cs : List Char) :
    lex (';' :: cs) = (lex cs).map (fun ts => Tok.semi :: ts) := by
  rw [lex.eq_def]; rfl

theorem lex_quest (cs : List Char) :
    lex ('?' :: cs) = (lex cs).map (fun ts => Tok.quest :: ts) := by
  rw [lex.eq_def]; rfl

theorem lex_colon (cs : List Char) :
    lex (':' :: cs) = (lex cs).map (fun ts => Tok.colon :: ts) := by
  rw [lex.eq_def]; rfl

theorem lex_pipe (cs : List Char) :
    lex ('|' :: cs) = (lex cs).map (fun ts => Tok.pipe :: ts) := by
  rw [lex.eq_def]; rfl

theorem lex_nil_eq : lex [] = some [] := by
  rw [lex.eq_def]

theorem lexChunk_append {cs1 ts1 cs2 ts2} (h1 : LexChunk cs1 ts1) (h2 : LexChunk cs2 ts2) :
    LexChunk (cs1 ++ cs2) (ts1 ++ ts2) := by
  intro rest
  rw [List.append_assoc, h1, h2]
  cases lex rest <;> simp

theorem lexChunk_run {cs ts} (h : LexChunk cs ts) : lex cs = some ts := by
  have h0 := h []
  rw [List.append_nil, lex_nil_eq] at h0
  simpa using h0

theorem chunk_ws (c : Char) (h : isWsChar c = true) : LexChunk [c] [] := by
  intro rest
  rw [List.cons_append, List.nil_append, lex_ws_cons c rest h]
  cases lex rest <;> simp

theorem chunk_lbrace : LexChunk ['\x7b'] [Tok.lbrace] := fun rest => lex_lbrace rest

theorem chunk_rbrace : LexChunk ['\x7d'] [Tok.rbrace] := fun rest => lex_rbrace rest

theorem chunk_eq : LexChunk ['='] [Tok.eq] := fun rest => lex_eq_tok rest

theorem chunk_semi : LexChunk [';'] [Tok.semi] := fun rest => lex_semi rest

theorem chunk_quest : LexChunk ['?'] [Tok.quest] := fun rest => lex_quest rest

theorem chunk_colon : LexChunk [':'] [Tok.colon] := fun rest => lex_colon rest

theorem chunk_pipe : LexChunk ['|'] [Tok.pipe] := fun rest => lex_pipe rest

theorem identShape_destruct (s : String) (hs : identShape s = true) :
    ∃ c0 body, s = String.mk (c0 :: body) ∧ isIdentStart c0 = true
      ∧ body.all isIdentChar = true := by
  obtain ⟨l⟩ := s
  cases l with
  | nil => simp [identShape] at hs
  | cons c0 body =>
      simp only [identShape, Bool.and_eq_true] at hs
      exact ⟨c0, body, rfl, hs.1, hs.2⟩

theorem chunk_ident_cons (s : String) (hs : identShape s = true) (c : Char) (cs2 : List Char)
    (ts2 : List Tok) (hc : isIdentChar c = false) (h2 : LexChunk (c :: cs2) ts2) :
    LexChunk (s.data ++ c :: cs2) (Tok.ident s :: ts2) := by
  obtain ⟨c0, body, hmk, hc0, hbody⟩ := identShape_destruct s hs
  subst hmk
  intro rest
  rw [show (String.mk (c0 :: body)).data ++ c :: cs2 ++ rest
      = c0 :: (body ++ (c :: (cs2 ++ rest))) by simp]
  rw [lex_ident_chunk c0 body (c :: (cs2 ++ rest)) hc0 hbody
    (by intro d hd; simp at hd; subst hd; exact hc)]
  rw [show c :: (cs2 ++ rest) = (c :: cs2) ++ rest from rfl, h2]
  cases lex rest <;> simp

theorem chunk_str (s : String) (hs : innerOk s = true) :
    LexChunk ('"' :: s.data ++ ['"']) [Tok.str s] := by
  obtain ⟨l⟩ := s
  intro rest
  rw [show ('"' :: (String.mk l).data ++ ['"']) ++ rest = '"' :: (l ++ '"' :: rest) by simp]
  rw [lex_str_chunk_aux l rest (by simpa [innerOk] using hs)]
  cases lex rest <;> simp

theorem chunk_slash_cons (c : Char) (cs2 : List Char) (ts2 : List Tok)
    (hp : isPathChar c = false) (hs : ¬(c = '/')) (h2 : LexChunk (c :: cs2) ts2) :
    LexChunk ('/' :: c :: cs2) (Tok.slash :: ts2) := by
  intro rest
  rw [show ('/' :: c :: cs2) ++ rest = '/' :: c :: (cs2 ++ rest) from rfl]
  rw [lex_slash_cons c (cs2 ++ rest) hp hs]
  rw [show c :: (cs2 ++ rest) = (c :: cs2) ++ rest from rfl, h2]
  cases lex rest <;> simp

theorem chunk_pathSeg_cons (s : String) (hne : s.data ≠ []) (hall : s.data.all isPathChar = true)
    (c : Char) (cs2 : List Char) (ts2 : List Tok) (hc : isPathChar c = false)
    (h2 : LexChunk (c :: cs2) ts2) :
    LexChunk ('/' :: s.data ++ c :: cs2) (Tok.pathSeg s :: ts2) := by
  obtain ⟨l⟩ := s
  cases l with
  | nil => simp at hne
  | cons d body =>
      simp only [List.all_cons, Bool.and_eq_true] at hall
      intro rest
      rw [show ('/' :: (String.mk (d :: body)).data ++ c :: cs2) ++ rest
          = '/' :: d :: (body ++ (c :: (cs2 ++ rest))) by simp]
      rw [lex_pathSeg_chunk d body (c :: (cs2 ++ rest)) hall.1 hall.2
        (by intro e he; simp at he; subst he; exact hc)]
      rw [show c :: (cs2 ++ rest) = (c :: cs2) ++ rest from rfl, h2]
      cases lex rest <;> simp

theorem lexChunk_nil : LexChunk [] [] := by
  intro rest
  simp

theorem lexChunk_congr {cs1 ts1 cs2 ts2 : _} (h : LexChunk cs1 ts1) (hc : cs2 = cs1)
    (ht : ts2 = ts1) : LexChunk cs2 ts2 := by
  subst hc; subst ht; exact h

theorem join_data_aux (ls : List String) (init : String) :
    (ls.foldl (fun a b => a ++ b) init).data = init.data ++ (ls.map String.data).flatten := by
  induction ls generalizing init with
  | nil => simp
  | cons l ls ih =>
      simp only [List.foldl_cons, List.map_cons, List.flatten_cons, ih,
        String.data_append, List.append_assoc]

theorem join_data (ls : List String) :
    (String.join ls).data = (ls.map String.data).flatten := by
  have h := join_data_aux ls ""
  simpa [String.join] using h

theorem string_ext_data {a b : String} (h : a.data = b.data) : a = b := by
  obtain ⟨la⟩ := a
  obtain ⟨lb⟩ := b
  exact congrArg String.mk h

theorem unqVal_data (v : String) : (unqVal v).data = v.data.tail.dropLast := rfl

theorem quoted_destruct (v : String) (h : quotedShape v = true) :
    v.data = '"' :: v.data.tail.dropLast ++ ['"']
      ∧ (v.data.tail.dropLast).all (fun d => d ≠ '"') = true := by
  obtain ⟨l⟩ := v
  cases l with
  | nil => simp [quotedShape] at h
  | cons c rest =>
      simp only [quotedShape, Bool.and_eq_true, decide_eq_true_eq, beq_iff_eq,
        Bool.not_eq_true'] at h
      obtain ⟨⟨⟨hc, hne⟩, hall⟩, hlast⟩ := h
      subst hc
      have hne2 : rest ≠ [] := by
        intro he
        subst he
        simp at hne
      have hgl : rest.getLast hne2 = '"' := by
        have := List.getLast?_eq_getLast rest hne2
        rw [this] at hlast
        exact Option.some.inj hlast
      constructor
      · show ('"' :: rest) = '"' :: ('"' :: rest).tail.dropLast ++ ['"']
        simp only [List.tail_cons]
        conv_lhs => rw [← List.dropLast_append_getLast hne2, hgl]
        rfl
      · simpa using hall

theorem innerOk_unq (v : String) (h : quotedShape v = true) : innerOk (unqVal v) = true := by
  have h2 := (quoted_destruct v h).2
  simpa [innerOk, unqVal_data] using h2

theorem qv_unqVal (v : String) (h : quotedShape v = true) : qv (unqVal v) = v := by
  apply string_ext_data
  rw [show (qv (unqVal v)).data = '"' :: v.data.tail.dropLast ++ ['"'] by
    simp [qv, String.data_append, unqVal_data]]
  exact (quoted_destruct v h).1.symm

theorem quoteVal_quoted (v : String) (h : quotedShape v = true) : quoteVal v = v := by
  obtain ⟨l⟩ := v
  cases l with
  | nil => simp [quotedShape] at h
  | cons c rest =>
      have hc : c = '"' := by
        simp only [quotedShape, Bool.and_eq_true, decide_eq_true_eq] at h
        exact h.1.1.1
      subst hc
      rfl

theorem chunk_quoted (v : String) (h : quotedShape v = true) :
    LexChunk (quoteVal v).data [Tok.str (unqVal v)] := by
  rw [quoteVal_quoted v h]
  refine lexChunk_congr (chunk_str (unqVal v) (innerOk_unq v h)) ?_ rfl
  rw [unqVal_data]
  exact (quoted_destruct v h).1

theorem chunk_union_tail (vs : List String) (hne : vs ≠ []) (hall : vs.all quotedShape = true) :
    LexChunk ((joinSep " | " (vs.map quoteVal)).data ++ [';'])
      (joinPipeToks (vs.map (fun v => Tok.str (unqVal v))) ++ [Tok.semi]) := by
  induction vs with
  | nil => exact absurd rfl hne
  | cons v vs ih =>
      simp only [List.all_cons, Bool.and_eq_true] at hall
      cases vs with
      | nil =>
          exact lexChunk_congr (lexChunk_append (chunk_quoted v hall.1) chunk_semi)
            (by simp [joinSep]) (by simp [joinPipeToks])
      | cons v2 vs2 =>
          have h2 := ih (by simp) hall.2
          refine lexChunk_congr
            (lexChunk_append (chunk_quoted v hall.1)
              (lexChunk_append (chunk_ws ' ' (by decide))
                (lexChunk_append chunk_pipe
                  (lexChunk_append (chunk_ws ' ' (by decide)) h2)))) ?_ ?_
          · simp [joinSep, String.data_append]
          · simp [joinPipeToks]

theorem chunk_type_semi (names : List String) (t : Ty) (h : WfTy names t = true) :
    LexChunk ((printType t).data ++ [';']) (tyToks t ++ [Tok.semi]) := by
  cases t with
  | stringKw =>
      exact lexChunk_congr
        (chunk_ident_cons "string" (by decide) ';' [] [Tok.semi] (by decide) chunk_semi)
        (by simp [printType]) (by simp [tyToks])
  | strLit v =>
      have hq : quotedShape v = true := by simpa [WfTy] using h
      exact lexChunk_congr (lexChunk_append (chunk_quoted v hq) chunk_semi)
        (by simp [printType]) (by simp [tyToks])
  | union vs =>
      simp only [WfTy, Bool.and_eq_true, decide_eq_true_eq] at h
      have hne : vs ≠ [] := by
        intro he
        subst he
        simp at h
      exact lexChunk_congr (chunk_union_tail vs hne h.2)
        (by simp [printType]) (by simp [tyToks])
  | ref nm linked =>
      simp only [WfTy, Bool.and_eq_true, decide_eq_true_eq] at h
      have hid : identShape nm = true := h.1.1
      have hnm : ¬(nm = "") := by
        intro he
        subst he
        exact absurd hid (by decide)
      exact lexChunk_congr
        (chunk_ident_cons nm hid ';' [] [Tok.semi] (by decide) chunk_semi)
        (by simp [printType, hnm]) (by simp [tyToks])

theorem tyToks_erase (t : Ty) : tyToks (eraseTy t) = tyToks t := by
  cases t <;> rfl

theorem entryToks_erase (p : ParameterDeclaration) : entryToks (eraseParam p) = entryToks p := by
  simp [entryToks, eraseParam, tyToks_erase]

theorem printPathSegment_static (body : List Char) :
    printPathSegment { static := some (String.mk ('/' :: body)), parameter := none }
      = String.mk ('/' :: body) := by
  have hne : ¬(String.mk ('/' :: body) = "") := by
    intro he
    have := congrArg String.data he
    simp at this
  simp [printPathSegment, truthy, hne]

theorem printPathSegment_param (nm : String) (h : identShape nm = true) :
    printPathSegment { static := none, parameter := some nm } = "/:" ++ nm := by
  have hne : ¬(nm = "") := by
    intro he
    subst he
    exact absurd h (by decide)
  simp [printPathSegment, truthy, hne]

theorem printPathSegment_head (seg : PathSegment) (h : WfSeg seg = true) :
    ∃ tl, (printPathSegment seg).data = '/' :: tl := by
  obtain ⟨st, pr⟩ := seg
  cases st with
  | some s =>
      cases pr with
      | some x => simp [WfSeg] at h
      | none =>
          obtain ⟨l⟩ := s
          cases l with
          | nil => simp [WfSeg] at h
          | cons c0 body =>
              have hc0 : c0 = '/' := by
                simp only [WfSeg, Bool.and_eq_true, decide_eq_true_eq] at h
                exact h.1.1
              subst hc0
              rw [printPathSegment_static body]
              exact ⟨body, rfl⟩
  | none =>
      cases pr with
      | none => simp [WfSeg] at h
      | some nm =>
          rw [printPathSegment_param nm (by simpa [WfSeg] using h)]
          exact ⟨':' :: nm.data, by simp [String.data_append]⟩

theorem seg_chunk_cons (seg : PathSegment) (h : WfSeg seg = true) (c : Char)
    (cs2 : List Char) (ts2 : List Tok) (hp : isPathChar c = false) (hi : isIdentChar c = false)
    (h2 : LexChunk (c :: cs2) ts2) :
    LexChunk ((printPathSegment seg).data ++ c :: cs2) (segToks seg ++ ts2) := by
  obtain ⟨st, pr⟩ := seg
  cases st with
  | some s =>
      cases pr with
      | some x => simp [WfSeg] at h
      | none =>
          obtain ⟨l⟩ := s
          cases l with
          | nil => simp [WfSeg] at h
          | cons c0 body =>
              simp only [WfSeg, Bool.and_eq_true, decide_eq_true_eq, Bool.not_eq_true'] at h
              obtain ⟨⟨hc0, hbne⟩, hall⟩ := h
              subst hc0
              refine lexChunk_congr
                (chunk_pathSeg_cons (String.mk body) ?_ hall c cs2 ts2 hp h2) ?_ ?_
              · intro he
                have : body = [] := he
                subst this
                simp at hbne
              · rw [printPathSegment_static body]
              · simp [segToks]
  | none =>
      cases pr with
      | none => simp [WfSeg] at h
      | some nm =>
          have hnm : identShape nm = true := by simpa [WfSeg] using h
          refine lexChunk_congr
            (chunk_slash_cons ':' (nm.data ++ c :: cs2) (Tok.colon :: Tok.ident nm :: ts2)
              (by decide) (by decide)
              (lexChunk_congr
                (lexChunk_append chunk_colon (chunk_ident_cons nm hnm c cs2 ts2 hi h2))
                (by simp) (by simp))) ?_ ?_
          · rw [printPathSegment_param nm hnm]
            simp [String.data_append]
          · simp [segToks]

theorem chunk_segs_sp (segs : List PathSegment) (hne : segs ≠ [])
    (hall : segs.all WfSeg = true) :
    LexChunk ((String.join (segs.map printPathSegment)).data ++ [' '])
      ((segs.map segToks).flatten) := by
  induction segs with
  | nil => exact absurd rfl hne
  | cons seg segs ih =>
      simp only [List.all_cons, Bool.and_eq_true] at hall
      cases segs with
      | nil =>
          refine lexChunk_congr
            (seg_chunk_cons seg hall.1 ' ' [] [] (by decide) (by decide)
              (chunk_ws ' ' (by decide))) ?_ ?_
          · simp [join_data]
          · simp
      | cons s2 rest =>
          have h2 := ih (by simp) hall.2
          have hall2 : WfSeg s2 = true := by
            simp only [List.all_cons, Bool.and_eq_true] at hall
            exact hall.2.1
          obtain ⟨t0, ht0⟩ := printPathSegment_head s2 hall2
          obtain ⟨tl, htl⟩ : ∃ tl,
              (String.join ((s2 :: rest).map printPathSegment)).data ++ [' '] = '/' :: tl := by
            rw [join_data]
            simp only [List.map_cons, List.flatten_cons, List.map_map]
            rw [ht0]
            refine ⟨t0 ++ ((rest.map (String.data ∘ printPathSegment)).flatten ++ [' ']),
              by simp⟩
          rw [htl] at h2
          refine lexChunk_congr
            (seg_chunk_cons seg hall.1 '/' tl _ (by decide) (by decide) h2) ?_ ?_
          · rw [show (printPathSegment seg).data ++ '/' :: tl
                = (printPathSegment seg).data
                  ++ ((String.join ((s2 :: rest).map printPathSegment)).data ++ [' ']) by
              rw [htl]]
            simp [join_data]
          · simp

theorem chunk_path_sp (path : Path) (h : WfPath path = true) :
    LexChunk ((printPath path).data ++ [' ']) (pathToks path) := by
  cases hr : path.root with
  | true =>
      refine lexChunk_congr
        (chunk_slash_cons ' ' [] [] (by decide) (by decide) (chunk_ws ' ' (by decide))) ?_ ?_
      · simp [printPath, hr]
      · simp [pathToks, hr]
  | false =>
      simp only [WfPath, hr, Bool.false_eq_true, if_false, Bool.and_eq_true,
        Bool.not_eq_true'] at h
      have hne : path.segments ≠ [] := by
        intro he
        rw [he] at h
        simp at h
      exact lexChunk_congr (chunk_segs_sp path.segments hne h.2)
        (by simp [printPath, hr]) (by simp [pathToks, hr])

theorem chunk_entry (names : List String) (p : ParameterDeclaration)
    (h : WfParam names p = true) :
    LexChunk (lineChars ("  " ++ printParameter p)) (entryToks p) := by
  simp only [WfParam, Bool.and_eq_true] at h
  obtain ⟨⟨hname, htype⟩, hcst⟩ := h
  have htail : LexChunk (((printType p.type).data ++ [';']) ++ ['\n'])
      ((tyToks p.type ++ [Tok.semi]) ++ []) :=
    lexChunk_append (chunk_type_semi names p.type htype) (chunk_ws '\n' (by decide))
  have hsp : LexChunk (' ' :: ((printType p.type).data ++ [';'] ++ ['\n']))
      (tyToks p.type ++ [Tok.semi]) :=
    lexChunk_congr (lexChunk_append (chunk_ws ' ' (by decide)) htail) (by simp) (by simp)
  cases hopt : p.optional with
  | false =>
      have hcol : LexChunk (':' :: ' ' :: ((printType p.type).data ++ [';'] ++ ['\n']))
          (Tok.colon :: (tyToks p.type ++ [Tok.semi])) :=
        lexChunk_congr (lexChunk_append chunk_colon hsp) (by simp) (by simp)
      have hid := chunk_ident_cons p.name hname ':'
        (' ' :: ((printType p.type).data ++ [';'] ++ ['\n']))
        (Tok.colon :: (tyToks p.type ++ [Tok.semi])) (by decide) hcol
      refine lexChunk_congr
        (lexChunk_append (chunk_ws ' ' (by decide))
          (lexChunk_append (chunk_ws ' ' (by decide)) hid)) ?_ ?_
      · simp [lineChars, printParameter, hopt, String.data_append]
      · simp [entryToks, hopt]
  | true =>
      have hcol : LexChunk (':' :: ' ' :: ((printType p.type).data ++ [';'] ++ ['\n']))
          (Tok.colon :: (tyToks p.type ++ [Tok.semi])) :=
        lexChunk_congr (lexChunk_append chunk_colon hsp) (by simp) (by simp)
      have hq : LexChunk ('?' :: ':' :: ' ' :: ((printType p.type).data ++ [';'] ++ ['\n']))
          (Tok.quest :: Tok.colon :: (tyToks p.type ++ [Tok.semi])) :=
        lexChunk_congr (lexChunk_append chunk_quest hcol) (by simp) (by simp)
      have hid := chunk_ident_cons p.name hname '?'
        (':' :: ' ' :: ((printType p.type).data ++ [';'] ++ ['\n']))
        (Tok.quest :: Tok.colon :: (tyToks p.type ++ [Tok.semi])) (by decide) hq
      refine lexChunk_congr
        (lexChunk_append (chunk_ws ' ' (by decide))
          (lexChunk_append (chunk_ws ' ' (by decide)) hid)) ?_ ?_
      · simp [lineChars, printParameter, hopt, String.data_append]
      · simp [entryToks, hopt]

theorem chunk_entries (names : List String) (ps : List ParameterDeclaration)
    (h : ps.all (WfParam names) = true) :
    LexChunk ((ps.map (fun p => lineChars ("  " ++ printParameter p))).flatten)
      ((ps.map entryToks).flatten) := by
  induction ps with
  | nil => exact lexChunk_nil
  | cons p ps ih =>
      simp only [List.all_cons, Bool.and_eq_true] at h
      exact lexChunk_congr (lexChunk_append (chunk_entry names p h.1) (ih h.2))
        (by simp) (by simp)

theorem entryToks_map_erase (ps : List ParameterDeclaration) :
    (ps.map eraseParam).map entryToks = ps.map entryToks := by
  induction ps with
  | nil => rfl
  | cons p ps ih => simp [entryToks_erase, ih]

theorem chunk_rbrace_line : LexChunk ['\x7d', '\n'] [Tok.rbrace] :=
  lexChunk_congr (lexChunk_append chunk_rbrace (chunk_ws '\n' (by decide)))
    (by simp) (by simp)

theorem chunk_endpoint_section (u : String) (h : innerOk u = true) :
    LexChunk (sectionChars [("endpoint \"" ++ u ++ "\";")]) (declToks (Decl.endpointD u)) := by
  have s1 : LexChunk (('"' :: u.data ++ ['"']) ++ ([';'] ++ ['\n']))
      ([Tok.str u] ++ ([Tok.semi] ++ [])) :=
    lexChunk_append (chunk_str u h) (lexChunk_append chunk_semi (chunk_ws '\n' (by decide)))
  have s2 : LexChunk (' ' :: ('"' :: u.data ++ ['"', ';', '\n'])) [Tok.str u, Tok.semi] :=
    lexChunk_congr (lexChunk_append (chunk_ws ' ' (by decide)) s1) (by simp) (by simp)
  have s3 := chunk_ident_cons "endpoint" (by decide) ' ' ('"' :: u.data ++ ['"', ';', '\n'])
    [Tok.str u, Tok.semi] (by decide) s2
  refine lexChunk_congr s3 ?_ ?_
  · simp [sectionChars, lineChars, String.data_append]
  · simp [declToks]

theorem chunk_param_line (names : List String) (pt : ParamTypeDeclaration)
    (hn : identShape pt.name = true) (ht : WfTy names pt.type = true) :
    LexChunk (lineChars ("param " ++ pt.name ++ " = " ++ printType pt.type ++ ";"))
      ([Tok.ident "param", Tok.ident pt.name, Tok.eq] ++ tyToks pt.type ++ [Tok.semi]) := by
  have p0 : LexChunk (((printType pt.type).data ++ [';']) ++ ['\n'])
      ((tyToks pt.type ++ [Tok.semi]) ++ []) :=
    lexChunk_append (chunk_type_semi names pt.type ht) (chunk_ws '\n' (by decide))
  have p1 : LexChunk (' ' :: ((printType pt.type).data ++ [';', '\n']))
      (tyToks pt.type ++ [Tok.semi]) :=
    lexChunk_congr (lexChunk_append (chunk_ws ' ' (by decide)) p0) (by simp) (by simp)
  have p2 : LexChunk ('=' :: ' ' :: ((printType pt.type).data ++ [';', '\n']))
      (Tok.eq :: (tyToks pt.type ++ [Tok.semi])) :=
    lexChunk_congr (lexChunk_append chunk_eq p1) (by simp) (by simp)
  have p3 : LexChunk (' ' :: '=' :: ' ' :: ((printType pt.type).data ++ [';', '\n']))
      (Tok.eq :: (tyToks pt.type ++ [Tok.semi])) :=
    lexChunk_congr (lexChunk_append (chunk_ws ' ' (by decide)) p2) (by simp) (by simp)
  have p4 := chunk_ident_cons pt.name hn ' '
    ('=' :: ' ' :: ((printType pt.type).data ++ [';', '\n']))
    (Tok.eq :: (tyToks pt.type ++ [Tok.semi])) (by decide) p3
  have p5 : LexChunk (' ' :: (pt.name.data ++ ' ' :: '=' :: ' '
        :: ((printType pt.type).data ++ [';', '\n'])))
      (Tok.ident pt.name :: Tok.eq :: (tyToks pt.type ++ [Tok.semi])) :=
    lexChunk_congr (lexChunk_append (chunk_ws ' ' (by decide)) p4) (by simp) (by simp)
  have p6 := chunk_ident_cons "param" (by decide) ' '
    (pt.name.data ++ ' ' :: '=' :: ' ' :: ((printType pt.type).data ++ [';', '\n']))
    (Tok.ident pt.name :: Tok.eq :: (tyToks pt.type ++ [Tok.semi])) (by decide) p5
  refine lexChunk_congr p6 ?_ ?_
  · simp [lineChars, String.data_append]
  · simp

theorem chunk_param_section (names : List String) (pts : List ParamTypeDeclaration)
    (h : pts.all (fun pt => identShape pt.name && WfTy names pt.type
      && (pt.cst == none)) = true) :
    LexChunk ((pts.map (fun pt =>
        lineChars ("param " ++ pt.name ++ " = " ++ printType pt.type ++ ";"))).flatten)
      ((pts.map (fun pt => declToks (Decl.paramTypeD (erasePT pt)))).flatten) := by
  induction pts with
  | nil => exact lexChunk_nil
  | cons pt pts ih =>
      simp only [List.all_cons, Bool.and_eq_true] at h
      refine lexChunk_congr
        (lexChunk_append (chunk_param_line names pt h.1.1.1 h.1.1.2) (ih h.2)) ?_ ?_
      · simp
      · simp [declToks, erasePT, tyToks_erase]

theorem lineChars_indent (s : String) :
    lineChars ("  " ++ s) = ' ' :: ' ' :: (s.data ++ ['\n']) := by
  simp [lineChars, String.data_append]

theorem indent_lines_chars (ps : List ParameterDeclaration) :
    (ps.map (lineChars ∘ fun p => "  " ++ printParameter p)).flatten
      = (ps.map (fun p => ' ' :: ' ' :: ((printParameter p).data ++ ['\n']))).flatten := by
  induction ps with
  | nil => rfl
  | cons p ps ih =>
      simp only [List.map_cons, List.flatten_cons, ih, Function.comp_apply, lineChars_indent]

theorem entry_erase_flatten (ps : List ParameterDeclaration) :
    (ps.map (entryToks ∘ eraseParam)).flatten = (ps.map entryToks).flatten := by
  induction ps with
  | nil => rfl
  | cons p ps ih =>
      simp only [List.map_cons, List.flatten_cons, ih, Function.comp_apply, entryToks_erase]

theorem chunk_global_section (names : List String) (ps : List ParameterDeclaration)
    (h : ps.all (WfParam names) = true) :
    LexChunk (sectionChars (printGlobal ps)) (declToks (Decl.globalD (ps.map eraseParam))) := by
  have g0 : LexChunk (' ' :: ['\x7b', '\n']) ([] ++ ([Tok.lbrace] ++ [])) :=
    lexChunk_append (chunk_ws ' ' (by decide))
      (lexChunk_append chunk_lbrace (chunk_ws '\n' (by decide)))
  have hdr := chunk_ident_cons "global" (by decide) ' ' ['\x7b', '\n']
    ([] ++ ([Tok.lbrace] ++ [])) (by decide) g0
  refine lexChunk_congr
    (lexChunk_append hdr (lexChunk_append (chunk_entries names ps h) chunk_rbrace_line))
    ?_ ?_
  · simp [sectionChars, printGlobal, lineChars, String.data_append, List.map_map,
      Function.comp]
    exact indent_lines_chars ps
  · simp [declToks]
    exact entry_erase_flatten ps

theorem chunk_page_section (names : List String) (pg : PageDeclaration)
    (h : WfPage names pg = true) :
    LexChunk (sectionChars (printPage pg)) (declToks (Decl.pageD (erasePage pg))) := by
  simp only [WfPage, Bool.and_eq_true] at h
  obtain ⟨⟨⟨hname, hpath⟩, hparams⟩, hcst⟩ := h
  have b0 : LexChunk ['\x7b', '\n'] [Tok.lbrace] :=
    lexChunk_congr (lexChunk_append chunk_lbrace (chunk_ws '\n' (by decide)))
      (by simp) (by simp)
  have b1 : LexChunk (((printPath pg.path).data ++ [' ']) ++ ['\x7b', '\n'])
      (pathToks pg.path ++ [Tok.lbrace]) :=
    lexChunk_append (chunk_path_sp pg.path hpath) b0
  have b2 : LexChunk (' ' :: ((printPath pg.path).data ++ [' ', '\x7b', '\n']))
      (pathToks pg.path ++ [Tok.lbrace]) :=
    lexChunk_congr (lexChunk_append (chunk_ws ' ' (by decide)) b1) (by simp) (by simp)
  have b3 : LexChunk ('=' :: ' ' :: ((printPath pg.path).data ++ [' ', '\x7b', '\n']))
      (Tok.eq :: (pathToks pg.path ++ [Tok.lbrace])) :=
    lexChunk_congr (lexChunk_append chunk_eq b2) (by simp) (by simp)
  have b4 : LexChunk (' ' :: '=' :: ' ' :: ((printPath pg.path).data ++ [' ', '\x7b', '\n']))
      (Tok.eq :: (pathToks pg.path ++ [Tok.lbrace])) :=
    lexChunk_congr (lexChunk_append (chunk_ws ' ' (by decide)) b3) (by simp) (by simp)
  have b5 := chunk_ident_cons pg.name hname ' '
    ('=' :: ' ' :: ((printPath pg.path).data ++ [' ', '\x7b', '\n']))
    (Tok.eq :: (pathToks pg.path ++ [Tok.lbrace])) (by decide) b4
  have b6 : LexChunk (' ' :: (pg.name.data ++ ' ' :: '=' :: ' '
        :: ((printPath pg.path).data ++ [' ', '\x7b', '\n'])))
      (Tok.ident pg.name :: Tok.eq :: (pathToks pg.path ++ [Tok.lbrace])) :=
    lexChunk_congr (lexChunk_append (chunk_ws ' ' (by decide)) b5) (by simp) (by simp)
  have b7 := chunk_ident_cons "page" (by decide) ' '
    (pg.name.data ++ ' ' :: '=' :: ' ' :: ((printPath pg.path).data ++ [' ', '\x7b', '\n']))
    (Tok.ident pg.name :: Tok.eq :: (pathToks pg.path ++ [Tok.lbrace])) (by decide) b6
  refine lexChunk_congr
    (lexChunk_append b7
      (lexChunk_append (chunk_entries names pg.parameters hparams) chunk_rbrace_line)) ?_ ?_
  · simp [sectionChars, printPage, lineChars, String.data_append, List.map_map,
      Function.comp]
    exact indent_lines_chars pg.parameters
  · simp [declToks, erasePage]
    exact entry_erase_flatten pg.parameters

theorem joinBlank_chunk (secs : List (List String)) (tokss : List (List Tok))
    (h : List.Forall₂ (fun sec ts => LexChunk (sectionChars sec) ts) secs tokss) :
    LexChunk (joinBlank secs) tokss.flatten := by
  induction secs generalizing tokss with
  | nil =>
      cases h
      exact lexChunk_congr (chunk_ws '\n' (by decide)) rfl rfl
  | cons sec secs2 ih =>
      cases h with
      | cons hsec htail =>
          rename_i ts tokss2
          cases secs2 with
          | nil =>
              cases htail
              exact lexChunk_congr hsec (by simp [joinBlank]) (by simp)
          | cons s2 r2 =>
              have h2 := ih _ htail
              refine lexChunk_congr
                (lexChunk_append hsec (lexChunk_append (chunk_ws '\n' (by decide)) h2)) ?_ ?_
              · simp [joinBlank]
              · simp

theorem pages_forall (names : List String) (pgs : List PageDeclaration)
    (h : pgs.all (WfPage names) = true) :
    List.Forall₂ (fun sec ts => LexChunk (sectionChars sec) ts)
      (pgs.map printPage) (pgs.map (fun pg => declToks (Decl.pageD (erasePage pg)))) := by
  induction pgs with
  | nil => exact List.Forall₂.nil
  | cons pg pgs ih =>
      simp only [List.all_cons, Bool.and_eq_true] at h
      exact List.Forall₂.cons (chunk_page_section names pg h.1) (ih h.2)

set_option maxHeartbeats 1000000 in
theorem chunk_doc (doc : URLSpecDocument) (h : WfDoc doc = true) :
    LexChunk (docChars doc) (docToks doc) := by
  simp only [WfDoc, Bool.and_eq_true] at h
  obtain ⟨⟨⟨hend, hpts⟩, hglob⟩, hpages⟩ := h
  have hEf : List.Forall₂ (fun sec ts => LexChunk (sectionChars sec) ts)
      (match doc.endpoint with
       | some u => [[("endpoint \"" ++ u ++ "\";")]]
       | none => [])
      (match doc.endpoint with
       | some u => [declToks (Decl.endpointD u)]
       | none => []) := by
    cases hE : doc.endpoint with
    | none => exact List.Forall₂.nil
    | some u =>
        rw [hE] at hend
        exact List.Forall₂.cons (chunk_endpoint_section u hend) List.Forall₂.nil
  have hPf : List.Forall₂ (fun sec ts => LexChunk (sectionChars sec) ts)
      (if doc.paramTypes.isEmpty then []
       else [doc.paramTypes.map
         (fun pt => "param " ++ pt.name ++ " = " ++ printType pt.type ++ ";")])
      (if doc.paramTypes.isEmpty then []
       else [(doc.paramTypes.map
         (fun pt => declToks (Decl.paramTypeD (erasePT pt)))).flatten]) := by
    cases hP : doc.paramTypes.isEmpty with
    | true => simp
    | false =>
        simp only [Bool.false_eq_true, if_false]
        refine List.Forall₂.cons
          (lexChunk_congr (chunk_param_section (doc.paramTypes.map (fun pt => pt.name))
            doc.paramTypes hpts) ?_ rfl) List.Forall₂.nil
        simp only [sectionChars, List.map_map]
        rfl
  have hGf : List.Forall₂ (fun sec ts => LexChunk (sectionChars sec) ts)
      (match doc.global with
       | some ps => [printGlobal ps]
       | none => [])
      (match doc.global with
       | some ps => [declToks (Decl.globalD (ps.map eraseParam))]
       | none => []) := by
    cases hG : doc.global with
    | none => exact List.Forall₂.nil
    | some ps =>
        rw [hG] at hglob
        exact List.Forall₂.cons
          (chunk_global_section (doc.paramTypes.map (fun pt => pt.name)) ps hglob)
          List.Forall₂.nil
  have hPgf := pages_forall (doc.paramTypes.map (fun pt => pt.name)) doc.pages hpages
  have hF := List.rel_append (List.rel_append (List.rel_append hEf hPf) hGf) hPgf
  refine lexChunk_congr (joinBlank_chunk (docSections doc) _ hF) rfl ?_
  have hnil : doc.paramTypes.isEmpty = true → doc.paramTypes = [] := by
    intro hp
    cases hl : doc.paramTypes with
    | nil => rfl
    | cons a l => rw [hl] at hp; simp at hp
  cases hE : doc.endpoint <;> cases hG : doc.global <;> cases hP : doc.paramTypes.isEmpty <;>
    simp only [docToks, docDecls] <;> (try rw [hnil hP]) <;>
    simp [hE, hG, hP, List.map_map, Function.comp] <;>
    (try rfl)

theorem joinSep_line_data (sec : List String) (hne : sec ≠ []) :
    (joinSep "\n" sec).data ++ ['\n'] = sectionChars sec := by
  induction sec with
  | nil => exact absurd rfl hne
  | cons l ls ih =>
      cases ls with
      | nil => simp [joinSep, sectionChars, lineChars]
      | cons l2 ls2 =>
          have h2 := ih (by simp)
          rw [show joinSep "\n" (l :: l2 :: ls2) = l ++ "\n" ++ joinSep "\n" (l2 :: ls2) by
            simp [joinSep]]
          rw [show sectionChars (l :: l2 :: ls2) = lineChars l ++ sectionChars (l2 :: ls2) by
            simp [sectionChars]]
          simp only [String.data_append, List.append_assoc, List.cons_append,
            List.nil_append, lineChars]
          rw [h2]

theorem joinSep_secs_data (secs : List (List String)) (h : ∀ sec ∈ secs, sec ≠ []) :
    (joinSep "\n\n" (secs.map (joinSep "\n"))).data ++ ['\n'] = joinBlank secs := by
  induction secs with
  | nil => simp [joinSep, joinBlank]
  | cons sec secs ih =>
      cases secs with
      | nil =>
          simp only [List.map_cons, List.map_nil, joinBlank]
          exact joinSep_line_data sec (h sec (by simp))
      | cons s2 r2 =>
          have h2 := ih (by intro x hx; exact h x (by simp [hx]))
          rw [show joinSep "\n\n" ((sec :: s2 :: r2).map (joinSep "\n"))
              = joinSep "\n" sec ++ "\n\n" ++ joinSep "\n\n" ((s2 :: r2).map (joinSep "\n")) by
            simp [joinSep]]
          rw [show joinBlank (sec :: s2 :: r2) = sectionChars sec ++ '\n' :: joinBlank (s2 :: r2) by
            simp [joinBlank]]
          rw [← joinSep_line_data sec (h sec (by simp)), ← h2]
          simp [String.data_append]

theorem docSections_nonempty (doc : URLSpecDocument) :
    ∀ sec ∈ docSections doc, sec ≠ [] := by
  intro sec hsec
  simp only [docSections, List.mem_append] at hsec
  rcases hsec with ((h1 | h2) | h3) | h4
  · cases hE : doc.endpoint with
    | none => rw [hE] at h1; simp at h1
    | some u =>
        rw [hE] at h1
        simp at h1
        rw [h1]
        simp
  · cases hP : doc.paramTypes.isEmpty with
    | true => rw [hP] at h2; simp at h2
    | false =>
        rw [hP] at h2
        simp at h2
        rw [h2]
        intro he
        cases hl : doc.paramTypes with
        | nil => rw [hl] at hP; simp at hP
        | cons a l => rw [hl] at he; simp at he
  · cases hG : doc.global with
    | none => rw [hG] at h3; simp at h3
    | some ps =>
        rw [hG] at h3
        simp at h3
        rw [h3]
        simp [printGlobal]
  · obtain ⟨pg, _, hpg⟩ := List.mem_map.mp h4
    rw [← hpg]
    simp [printPage]

theorem print_data (doc : URLSpecDocument) : (print doc).data = docChars doc := by
  show ((joinSep "\n\n" ((docSections doc).map (joinSep "\n"))) ++ "\n").data = docChars doc
  rw [String.data_append]
  exact joinSep_secs_data (docSections doc) (docSections_nonempty doc)

theorem lex_print (doc : URLSpecDocument) (h : WfDoc doc = true) :
    lex (print doc).data = some (docToks doc) := by
  rw [print_data doc]
  exact lexChunk_run (chunk_doc doc h)

/-! ## Parser on canonical token sequences -/

theorem slash_append (body : List Char) :
    "/" ++ String.mk body = String.mk ('/' :: body) := by
  apply string_ext_data
  simp [String.data_append]

theorem qv_unq_map (vs : List String) (h : vs.all quotedShape = true) :
    (vs.map unqVal).map qv = vs := by
  induction vs with
  | nil => rfl
  | cons v vs ih =>
      simp only [List.all_cons, Bool.and_eq_true] at h
      simp only [List.map_cons]
      rw [qv_unqVal v h.1, ih h.2]

theorem parseUnionTail_toks (ss : List String) (hne : ss ≠ []) (rest : List Tok) :
    (parseUnionTail (joinPipeToks (ss.map Tok.str) ++ Tok.semi :: rest)).map cOut
      = some (ss.map qv, Tok.semi :: rest) := by
  induction ss with
  | nil => exact absurd rfl hne
  | cons s ss ih =>
      cases ss with
      | nil => simp [joinPipeToks, parseUnionTail, cOut]
      | cons s2 ss2 =>
          have h2 := ih (by simp)
          obtain ⟨c, hc, hco⟩ := Option.map_eq_some'.mp h2
          obtain ⟨v, r, hlt⟩ := c
          simp only [cOut, Prod.mk.injEq] at hco
          obtain ⟨hv, hr⟩ := hco
          subst hv
          subst hr
          rw [show joinPipeToks ((s :: s2 :: ss2).map Tok.str)
              = Tok.str s :: Tok.pipe :: joinPipeToks ((s2 :: ss2).map Tok.str) by
            simp [joinPipeToks]]
          simp only [List.cons_append, List.append_eq, parseUnionTail]
          rw [hc]
          simp [cOut]

theorem parseTypeToks_toks (t : Ty) (h : WfTyRaw t = true) (rest : List Tok) :
    (parseTypeToks (tyToks t ++ Tok.semi :: rest)).map cOut = some (t, Tok.semi :: rest) := by
  cases t with
  | stringKw => simp [tyToks, parseTypeToks, cOut]
  | strLit v =>
      have hq : quotedShape v = true := by simpa [WfTyRaw] using h
      simp [tyToks, parseTypeToks, cOut, qv_unqVal v hq]
  | ref nm linked =>
      simp only [WfTyRaw, Bool.and_eq_true, decide_eq_true_eq, Bool.not_eq_true'] at h
      obtain ⟨⟨hid, hns⟩, hl⟩ := h
      subst hl
      simp [tyToks, parseTypeToks, hns, cOut]
  | union vs =>
      simp only [WfTyRaw, Bool.and_eq_true, decide_eq_true_eq] at h
      obtain ⟨hlen, hall⟩ := h
      cases vs with
      | nil => simp at hlen
      | cons v1 vs1 =>
          cases vs1 with
          | nil => simp at hlen
          | cons v2 vs2 =>
              rw [List.all_cons, Bool.and_eq_true] at hall
              have hu := parseUnionTail_toks ((v2 :: vs2).map unqVal) (by simp) rest
              obtain ⟨c, hc, hco⟩ := Option.map_eq_some'.mp hu
              obtain ⟨v, r, hlt⟩ := c
              simp only [cOut, Prod.mk.injEq] at hco
              obtain ⟨hv, hr⟩ := hco
              subst hv
              subst hr
              rw [show tyToks (Ty.union (v1 :: v2 :: vs2))
                  = Tok.str (unqVal v1) :: Tok.pipe
                    :: joinPipeToks (((v2 :: vs2).map unqVal).map Tok.str) by
                simp [tyToks, joinPipeToks, List.map_map]
                rfl]
              simp only [List.cons_append, List.append_eq, parseTypeToks]
              rw [hc]
              simp [cOut, -List.map_map]
              have hall2 := hall.2
              rw [List.all_cons, Bool.and_eq_true] at hall2
              exact ⟨qv_unqVal v1 hall.1, qv_unqVal v2 hall2.1, qv_unq_map vs2 hall2.2⟩

theorem parseEntry_toks (p : ParameterDeclaration) (h : WfParamRaw p = true)
    (rest : List Tok) :
    (parseEntry (entryToks p ++ rest)).map cOut = some (p, rest) := by
  obtain ⟨pn, po, pt, pc⟩ := p
  simp only [WfParamRaw, Bool.and_eq_true] at h
  obtain ⟨⟨hname, htype⟩, hcst⟩ := h
  have hc0 : pc = none := by simpa using hcst
  subst hc0
  have ht := parseTypeToks_toks pt htype rest
  obtain ⟨c, hc, hco⟩ := Option.map_eq_some'.mp ht
  have hv : c.val = pt := congrArg Prod.fst hco
  have hr : c.rest = Tok.semi :: rest := congrArg Prod.snd hco
  cases po with
  | true =>
      rw [show entryToks ⟨pn, true, pt, none⟩ ++ rest
          = Tok.ident pn :: Tok.quest :: Tok.colon :: (tyToks pt ++ Tok.semi :: rest) by
        simp [entryToks]]
      simp only [parseEntry]
      rw [hc]
      split
      · rename_i c2 heq
        have hc2 : c2 = c := (Option.some.inj heq).symm
        subst hc2
        split
        · rename_i r2 heq2
          rw [hr] at heq2
          have hre : rest = r2 := by injection heq2
          subst hre
          simp [cOut, hv]
        · rename_i hx
          exact (hx rest (by rw [hr])).elim
      · rename_i heq
        cases heq
  | false =>
      rw [show entryToks ⟨pn, false, pt, none⟩ ++ rest
          = Tok.ident pn :: Tok.colon :: (tyToks pt ++ Tok.semi :: rest) by
        simp [entryToks]]
      simp only [parseEntry]
      rw [hc]
      split
      · rename_i c2 heq
        have hc2 : c2 = c := (Option.some.inj heq).symm
        subst hc2
        split
        · rename_i r2 heq2
          rw [hr] at heq2
          have hre : rest = r2 := by injection heq2
          subst hre
          simp [cOut, hv]
        · rename_i hx
          exact (hx rest (by rw [hr])).elim
      · rename_i heq
        cases heq

theorem parseParams_toks (ps : List ParameterDeclaration)
    (h : ps.all WfParamRaw = true) (rest : List Tok) :
    (parseParams ((ps.map entryToks).flatten ++ Tok.rbrace :: rest)).map cOut
      = some (ps, rest) := by
  induction ps with
  | nil =>
      rw [parseParams.eq_def]
      simp [cOut]
  | cons p ps ih =>
      simp only [List.all_cons, Bool.and_eq_true] at h
      have he := parseEntry_toks p h.1 ((ps.map entryToks).flatten ++ Tok.rbrace :: rest)
      obtain ⟨c, hc, hco⟩ := Option.map_eq_some'.mp he
      have hv : c.val = p := congrArg Prod.fst hco
      have hr : c.rest = (ps.map entryToks).flatten ++ Tok.rbrace :: rest :=
        congrArg Prod.snd hco
      have h2 := ih h.2
      have h3 : (parseParams c.rest).map cOut = some (ps, rest) := by
        rw [hr]
        exact h2
      rw [show (((p :: ps).map entryToks).flatten ++ Tok.rbrace :: rest)
          = entryToks p ++ ((ps.map entryToks).flatten ++ Tok.rbrace :: rest) by simp]
      rw [parseParams.eq_def]
      simp only [entryToks, List.cons_append, List.append_eq, List.append_assoc] at hc ⊢
      rw [hc]
      simp [cOut, hv]
      cases hx : parseParams c.rest with
      | some c4 =>
          rw [hx] at h3
          simp only [Option.map, cOut, Option.some.injEq, Prod.mk.injEq] at h3
          simp [h3.1, h3.2]
      | none =>
          rw [hx] at h3
          cases h3

theorem wfSeg_static_val (s : String) (pr : Option String)
    (h : WfSeg { static := some s, parameter := pr } = true) :
    pr = none ∧ "/" ++ String.mk s.data.tail = s := by
  cases pr with
  | some x => simp [WfSeg] at h
  | none =>
      refine ⟨rfl, ?_⟩
      obtain ⟨l⟩ := s
      cases l with
      | nil => simp [WfSeg] at h
      | cons c body =>
          have hc : c = '/' := by
            simp only [WfSeg, Bool.and_eq_true, decide_eq_true_eq] at h
            exact h.1.1
          subst hc
          exact slash_append body

theorem parseAtoms_toks (segs : List PathSegment) (hne : segs ≠ [])
    (hall : segs.all WfSeg = true) (r : List Tok) :
    (parseAtoms ((segs.map segToks).flatten ++ Tok.lbrace :: r)).map cOut
      = some (segs, Tok.lbrace :: r) := by
  induction segs with
  | nil => exact absurd rfl hne
  | cons seg segs ih =>
      rw [List.all_cons, Bool.and_eq_true] at hall
      obtain ⟨st, pr⟩ := seg
      cases st with
      | some s =>
          obtain ⟨hpr, hs⟩ := wfSeg_static_val s pr hall.1
          subst hpr
          cases segs with
          | nil =>
              rw [show (([({ static := some s, parameter := none } : PathSegment)]).map
                    segToks).flatten ++ Tok.lbrace :: r
                  = Tok.pathSeg (String.mk s.data.tail) :: Tok.lbrace :: r by simp [segToks]]
              simp [parseAtoms, cOut, hs]
          | cons s2 segs2 =>
              have h3 := ih (by simp) hall.2
              rw [show ((({ static := some s, parameter := none } : PathSegment)
                      :: s2 :: segs2).map segToks).flatten ++ Tok.lbrace :: r
                  = Tok.pathSeg (String.mk s.data.tail)
                    :: (((s2 :: segs2).map segToks).flatten ++ Tok.lbrace :: r) by
                simp [segToks]]
              simp only [parseAtoms]
              cases hx : parseAtoms (((s2 :: segs2).map segToks).flatten ++ Tok.lbrace :: r) with
              | some c4 =>
                  rw [hx] at h3
                  simp only [Option.map, cOut, Option.some.injEq, Prod.mk.injEq] at h3
                  simp [cOut, h3.1, h3.2, hs]
              | none =>
                  rw [hx] at h3
                  cases h3
      | none =>
          cases pr with
          | none => exact absurd hall.1 (by decide)
          | some nm =>
              cases segs with
              | nil =>
                  rw [show (([({ static := none, parameter := some nm } : PathSegment)]).map
                        segToks).flatten ++ Tok.lbrace :: r
                      = Tok.slash :: Tok.colon :: Tok.ident nm :: Tok.lbrace :: r by
                    simp [segToks]]
                  simp [parseAtoms, cOut]
              | cons s2 segs2 =>
                  have h3 := ih (by simp) hall.2
                  rw [show ((({ static := none, parameter := some nm } : PathSegment)
                          :: s2 :: segs2).map segToks).flatten ++ Tok.lbrace :: r
                      = Tok.slash :: Tok.colon :: Tok.ident nm
                        :: (((s2 :: segs2).map segToks).flatten ++ Tok.lbrace :: r) by
                    simp [segToks]]
                  simp only [parseAtoms]
                  cases hx : parseAtoms (((s2 :: segs2).map segToks).flatten
                      ++ Tok.lbrace :: r) with
                  | some c4 =>
                      rw [hx] at h3
                      simp only [Option.map, cOut, Option.some.injEq, Prod.mk.injEq] at h3
                      simp [cOut, h3.1, h3.2]
                  | none =>
                      rw [hx] at h3
                      cases h3

theorem parsePathToks_toks (path : Path) (h : WfPath path = true) (r : List Tok) :
    (parsePathToks (pathToks path ++ Tok.lbrace :: r)).map cOut
      = some (path, Tok.lbrace :: r) := by
  obtain ⟨ro, segs⟩ := path
  cases ro with
  | true =>
      have hsegs : segs = [] := by
        have h2 : segs.isEmpty = true := by simpa [WfPath] using h
        cases hl : segs with
        | nil => rfl
        | cons a l => rw [hl] at h2; simp at h2
      subst hsegs
      simp [pathToks, parsePathToks, cOut]
  | false =>
      simp only [WfPath, Bool.false_eq_true, if_false, Bool.and_eq_true,
        Bool.not_eq_true'] at h
      have hne : segs ≠ [] := by
        intro he
        rw [he] at h
        simp at h
      have h3 := parseAtoms_toks segs hne h.2 r
      cases segs with
      | nil => exact absurd rfl hne
      | cons s1 segs2 =>
          have hall := h.2
          rw [List.all_cons, Bool.and_eq_true] at hall
          obtain ⟨st, pr⟩ := s1
          cases st with
          | some s =>
              obtain ⟨hpr, hs⟩ := wfSeg_static_val s pr hall.1
              subst hpr
              have hshape : pathToks ⟨false,
                    ({ static := some s, parameter := none } : PathSegment) :: segs2⟩
                  ++ Tok.lbrace :: r
                  = Tok.pathSeg (String.mk s.data.tail)
                    :: ((segs2.map segToks).flatten ++ Tok.lbrace :: r) := by
                simp [pathToks, segToks]
              rw [hshape]
              rw [show ((({ static := some s, parameter := none } : PathSegment)
                      :: segs2).map segToks).flatten ++ Tok.lbrace :: r
                  = Tok.pathSeg (String.mk s.data.tail)
                    :: ((segs2.map segToks).flatten ++ Tok.lbrace :: r) by
                simp [segToks]] at h3
              simp only [parsePathToks]
              cases hx : parseAtoms (Tok.pathSeg (String.mk s.data.tail)
                  :: ((segs2.map segToks).flatten ++ Tok.lbrace :: r)) with
              | some c4 =>
                  rw [hx] at h3
                  simp only [Option.map, cOut, Option.some.injEq, Prod.mk.injEq] at h3
                  simp [cOut, h3.1, h3.2]
              | none =>
                  rw [hx] at h3
                  cases h3
          | none =>
              cases pr with
              | none => exact absurd hall.1 (by decide)
              | some nm =>
                  have hshape : pathToks ⟨false,
                        ({ static := none, parameter := some nm } : PathSegment) :: segs2⟩
                      ++ Tok.lbrace :: r
                      = Tok.slash :: Tok.colon :: Tok.ident nm
                        :: ((segs2.map segToks).flatten ++ Tok.lbrace :: r) := by
                    simp [pathToks, segToks]
                  rw [hshape]
                  rw [show ((({ static := none, parameter := some nm } : PathSegment)
                          :: segs2).map segToks).flatten ++ Tok.lbrace :: r
                      = Tok.slash :: Tok.colon :: Tok.ident nm
                        :: ((segs2.map segToks).flatten ++ Tok.lbrace :: r) by
                    simp [segToks]] at h3
                  simp only [parsePathToks]
                  cases hx : parseAtoms (Tok.slash :: Tok.colon :: Tok.ident nm
                      :: ((segs2.map segToks).flatten ++ Tok.lbrace :: r)) with
                  | some c4 =>
                      rw [hx] at h3
                      simp only [Option.map, cOut, Option.some.injEq, Prod.mk.injEq] at h3
                      simp [cOut, h3.1, h3.2]
                  | none =>
                      rw [hx] at h3
                      cases h3

theorem parseDecl_toks (d : Decl) (h : WfDeclRaw d = true) (rest : List Tok) :
    (parseDecl (declToks d ++ rest)).map cOut = some (d, rest) := by
  cases d with
  | endpointD u => simp [declToks, parseDecl, cOut]
  | paramTypeD pt =>
      obtain ⟨pn, pty, pc⟩ := pt
      simp only [WfDeclRaw, Bool.and_eq_true] at h
      obtain ⟨⟨hname, htype⟩, hcst⟩ := h
      have hc0 : pc = none := by simpa using hcst
      subst hc0
      have ht := parseTypeToks_toks pty htype rest
      obtain ⟨c, hc, hco⟩ := Option.map_eq_some'.mp ht
      have hv : c.val = pty := congrArg Prod.fst hco
      have hr : c.rest = Tok.semi :: rest := congrArg Prod.snd hco
      rw [show declToks (Decl.paramTypeD ⟨pn, pty, none⟩) ++ rest
          = Tok.ident "param" :: Tok.ident pn :: Tok.eq :: (tyToks pty ++ Tok.semi :: rest) by
        simp [declToks]]
      simp only [parseDecl]
      rw [hc]
      split
      · rename_i c2 heq
        have hc2 : c2 = c := (Option.some.inj heq).symm
        subst hc2
        split
        · rename_i r2 heq2
          rw [hr] at heq2
          have hre : rest = r2 := by injection heq2
          subst hre
          simp [cOut, hv]
        · rename_i hx
          exact (hx rest (by rw [hr])).elim
      · rename_i heq
        cases heq
  | globalD ps =>
      have hps : ps.all WfParamRaw = true := by simpa [WfDeclRaw] using h
      have h3 := parseParams_toks ps hps rest
      rw [show declToks (Decl.globalD ps) ++ rest
          = Tok.ident "global" :: Tok.lbrace
            :: ((ps.map entryToks).flatten ++ Tok.rbrace :: rest) by simp [declToks]]
      simp only [parseDecl]
      cases hx : parseParams ((ps.map entryToks).flatten ++ Tok.rbrace :: rest) with
      | some c4 =>
          rw [hx] at h3
          simp only [Option.map, cOut, Option.some.injEq, Prod.mk.injEq] at h3
          simp [cOut, h3.1, h3.2]
      | none =>
          rw [hx] at h3
          cases h3
  | pageD pg =>
      obtain ⟨pgn, pgpath, pgparams, pgcst⟩ := pg
      simp only [WfDeclRaw, WfPageRaw, Bool.and_eq_true] at h
      obtain ⟨⟨⟨hname, hpath⟩, hparams⟩, hcst⟩ := h
      have hc0 : pgcst = none := by simpa using hcst
      subst hc0
      have hp := parsePathToks_toks pgpath hpath
        ((pgparams.map entryToks).flatten ++ Tok.rbrace :: rest)
      obtain ⟨c, hc, hco⟩ := Option.map_eq_some'.mp hp
      have hv : c.val = pgpath := congrArg Prod.fst hco
      have hr : c.rest = Tok.lbrace :: ((pgparams.map entryToks).flatten ++ Tok.rbrace :: rest) :=
        congrArg Prod.snd hco
      have h3 : (parseParams ((pgparams.map entryToks).flatten ++ Tok.rbrace :: rest)).map cOut
          = some (pgparams, rest) := parseParams_toks pgparams hparams rest
      rw [show declToks (Decl.pageD ⟨pgn, pgpath, pgparams, none⟩) ++ rest
          = Tok.ident "page" :: Tok.ident pgn :: Tok.eq
            :: (pathToks pgpath ++ Tok.lbrace
              :: ((pgparams.map entryToks).flatten ++ Tok.rbrace :: rest)) by
        simp [declToks]]
      simp only [parseDecl]
      rw [hc]
      split
      · rename_i c2 heq
        have hc2 : c2 = c := (Option.some.inj heq).symm
        subst hc2
        split
        · rename_i r2 heq2
          rw [hr] at heq2
          have hre : (pgparams.map entryToks).flatten ++ Tok.rbrace :: rest = r2 := by
            injection heq2
          subst hre
          cases hx : parseParams ((pgparams.map entryToks).flatten ++ Tok.rbrace :: rest) with
          | some c4 =>
              rw [hx] at h3
              simp only [Option.map, cOut, Option.some.injEq, Prod.mk.injEq] at h3
              simp [cOut, hv, h3.1, h3.2]
          | none =>
              rw [hx] at h3
              cases h3
        · rename_i hx
          exact (hx ((pgparams.map entryToks).flatten ++ Tok.rbrace :: rest) (by rw [hr])).elim
      · rename_i heq
        cases heq

theorem parseStmts_toks (ds : List Decl) (h : ds.all WfDeclRaw = true) :
    parseStmts ((ds.map declToks).flatten) = some ds := by
  induction ds with
  | nil =>
      rw [parseStmts.eq_def]
      simp
  | cons d ds ih =>
      rw [List.all_cons, Bool.and_eq_true] at h
      have hd := parseDecl_toks d h.1 ((ds.map declToks).flatten)
      obtain ⟨c, hc, hco⟩ := Option.map_eq_some'.mp hd
      have hv : c.val = d := congrArg Prod.fst hco
      have hr : c.rest = (ds.map declToks).flatten := congrArg Prod.snd hco
      have h2 : parseStmts c.rest = some ds := by
        rw [hr]
        exact ih h.2
      rw [show ((d :: ds).map declToks).flatten
          = declToks d ++ (ds.map declToks).flatten by simp]
      rw [parseStmts.eq_def]
      cases d <;>
        simp only [declToks, List.cons_append, List.append_eq, List.nil_append] at hc ⊢ <;>
        rw [hc] <;>
        simp [hv, h2]

theorem assembleGo_pts (pts : List ParamTypeDeclaration) (rest : List Decl)
    (acc : URLSpecDocument) :
    assembleGo (pts.map Decl.paramTypeD ++ rest) acc
      = assembleGo rest { acc with paramTypes := acc.paramTypes ++ pts } := by
  induction pts generalizing acc with
  | nil => simp
  | cons pt pts ih =>
      simp only [List.map_cons, List.cons_append, List.append_eq, assembleGo]
      rw [ih]
      congr 1
      simp

theorem assembleGo_pages (pgs : List PageDeclaration) (acc : URLSpecDocument) :
    assembleGo (pgs.map Decl.pageD) acc = some { acc with pages := acc.pages ++ pgs } := by
  induction pgs generalizing acc with
  | nil => simp [assembleGo]
  | cons pg pgs ih =>
      simp only [List.map_cons, assembleGo]
      rw [ih]
      congr 2
      simp

theorem assemble_docDecls (doc : URLSpecDocument) :
    assemble (docDecls doc) = some (eraseDoc doc) := by
  have hpts : doc.paramTypes.map (fun pt => Decl.paramTypeD (erasePT pt))
      = (doc.paramTypes.map erasePT).map Decl.paramTypeD := by
    rw [List.map_map]
    rfl
  have hpgs : doc.pages.map (fun pg => Decl.pageD (erasePage pg))
      = (doc.pages.map erasePage).map Decl.pageD := by
    rw [List.map_map]
    rfl
  cases hE : doc.endpoint with
  | none =>
      cases hG : doc.global with
      | none =>
          rw [show docDecls doc
              = (doc.paramTypes.map erasePT).map Decl.paramTypeD
                ++ (doc.pages.map erasePage).map Decl.pageD by
            simp [docDecls, hE, hG, hpts, hpgs]]
          unfold assemble
          rw [assembleGo_pts, assembleGo_pages]
          simp [eraseDoc, hE, hG]
      | some ps =>
          rw [show docDecls doc
              = (doc.paramTypes.map erasePT).map Decl.paramTypeD
                ++ (Decl.globalD (ps.map eraseParam)
                  :: (doc.pages.map erasePage).map Decl.pageD) by
            simp [docDecls, hE, hG, hpts, hpgs]]
          unfold assemble
          rw [assembleGo_pts]
          simp only [assembleGo]
          rw [assembleGo_pages]
          simp [eraseDoc, hE, hG]
  | some u =>
      cases hG : doc.global with
      | none =>
          rw [show docDecls doc
              = Decl.endpointD u :: ((doc.paramTypes.map erasePT).map Decl.paramTypeD
                ++ (doc.pages.map erasePage).map Decl.pageD) by
            simp [docDecls, hE, hG, hpts, hpgs]]
          unfold assemble
          simp only [assembleGo]
          rw [assembleGo_pts, assembleGo_pages]
          simp [eraseDoc, hE, hG]
      | some ps =>
          rw [show docDecls doc
              = Decl.endpointD u :: ((doc.paramTypes.map erasePT).map Decl.paramTypeD
                ++ (Decl.globalD (ps.map eraseParam)
                  :: (doc.pages.map erasePage).map Decl.pageD)) by
            simp [docDecls, hE, hG, hpts, hpgs]]
          unfold assemble
          simp only [assembleGo]
          rw [assembleGo_pts]
          simp only [assembleGo]
          rw [assembleGo_pages]
          simp [eraseDoc, hE, hG]

theorem wfTyRaw_of_wfTy (names : List String) (t : Ty) (h : WfTy names t = true) :
    WfTyRaw (eraseTy t) = true := by
  cases t with
  | stringKw => rfl
  | strLit v => simpa [WfTy, WfTyRaw, eraseTy] using h
  | union vs => simpa [WfTy, WfTyRaw, eraseTy] using h
  | ref nm l =>
      simp only [WfTy, Bool.and_eq_true, decide_eq_true_eq] at h
      simp [WfTyRaw, eraseTy, h.1.1, h.1.2]

theorem wfParamRaw_of_wfParam (names : List String) (p : ParameterDeclaration)
    (h : WfParam names p = true) : WfParamRaw (eraseParam p) = true := by
  simp only [WfParam, Bool.and_eq_true] at h
  simp [WfParamRaw, eraseParam, h.1.1, h.2, wfTyRaw_of_wfTy names p.type h.1.2]

theorem wfPageRaw_of_wfPage (names : List String) (pg : PageDeclaration)
    (h : WfPage names pg = true) : WfPageRaw (erasePage pg) = true := by
  simp only [WfPage, Bool.and_eq_true] at h
  obtain ⟨⟨⟨hname, hpath⟩, hparams⟩, hcst⟩ := h
  simp only [WfPageRaw, erasePage, Bool.and_eq_true]
  refine ⟨⟨⟨hname, hpath⟩, ?_⟩, hcst⟩
  rw [List.all_eq_true] at hparams ⊢
  intro p hp
  obtain ⟨p0, hp0, hpe⟩ := List.mem_map.mp hp
  rw [← hpe]
  exact wfParamRaw_of_wfParam names p0 (hparams p0 hp0)

theorem docDecls_wf (doc : URLSpecDocument) (h : WfDoc doc = true) :
    (docDecls doc).all WfDeclRaw = true := by
  simp only [WfDoc, Bool.and_eq_true] at h
  obtain ⟨⟨⟨hend, hpts⟩, hglob⟩, hpages⟩ := h
  rw [List.all_eq_true]
  intro d hd
  simp only [docDecls, List.mem_append] at hd
  rcases hd with ((h1 | h2) | h3) | h4
  · cases hE : doc.endpoint with
    | none => rw [hE] at h1; simp at h1
    | some u =>
        rw [hE] at h1
        rw [hE] at hend
        simp at h1
        rw [h1]
        simpa [WfDeclRaw] using hend
  · obtain ⟨pt, hpt, hpe⟩ := List.mem_map.mp h2
    rw [← hpe]
    rw [List.all_eq_true] at hpts
    have hw := hpts pt hpt
    simp only [Bool.and_eq_true] at hw
    simp only [WfDeclRaw, erasePT, Bool.and_eq_true]
    exact ⟨⟨hw.1.1, wfTyRaw_of_wfTy _ pt.type hw.1.2⟩, hw.2⟩
  · cases hG : doc.global with
    | none => rw [hG] at h3; simp at h3
    | some ps =>
        rw [hG] at h3
        rw [hG] at hglob
        simp at h3
        rw [h3]
        simp only [WfDeclRaw]
        rw [List.all_eq_true]
        intro p hp
        obtain ⟨p0, hp0, hpe⟩ := List.mem_map.mp hp
        rw [← hpe]
        rw [List.all_eq_true] at hglob
        exact wfParamRaw_of_wfParam _ p0 (hglob p0 hp0)
  · obtain ⟨pg, hpg, hpe⟩ := List.mem_map.mp h4
    rw [← hpe]
    rw [List.all_eq_true] at hpages
    exact wfPageRaw_of_wfPage _ pg (hpages pg hpg)

theorem linkTy_erase (names : List String) (t : Ty) (h : WfTy names t = true) :
    linkTy names (eraseTy t) = t := by
  cases t with
  | stringKw => rfl
  | strLit v => rfl
  | union vs => rfl
  | ref nm l =>
      simp only [WfTy, Bool.and_eq_true, decide_eq_true_eq] at h
      have hl : l = names.contains nm := by
        have := h.2
        simpa using this
      simp [eraseTy, linkTy, hl]

theorem link_params (names : List String) (ps : List ParameterDeclaration)
    (h : ps.all (WfParam names) = true) :
    (ps.map eraseParam).map (linkParam names) = ps := by
  induction ps with
  | nil => rfl
  | cons p ps ih =>
      rw [List.all_cons, Bool.and_eq_true] at h
      simp only [List.map_cons, ih h.2]
      congr 1
      obtain ⟨pn, po, pt, pc⟩ := p
      simp only [WfParam, Bool.and_eq_true] at h
      simp only [eraseParam, linkParam]
      congr 1
      exact linkTy_erase names pt h.1.1.2

theorem link_pts (names : List String) (pts : List ParamTypeDeclaration)
    (h : pts.all (fun pt => identShape pt.name && WfTy names pt.type
      && (pt.cst == none)) = true) :
    (pts.map erasePT).map (fun pt => { pt with type := linkTy names pt.type }) = pts := by
  induction pts with
  | nil => rfl
  | cons pt pts ih =>
      rw [List.all_cons, Bool.and_eq_true] at h
      simp only [List.map_cons, ih h.2]
      congr 1
      obtain ⟨pn, pty, pc⟩ := pt
      simp only [Bool.and_eq_true] at h
      simp only [erasePT]
      congr 1
      exact linkTy_erase names pty h.1.1.2

theorem link_pages (names : List String) (pgs : List PageDeclaration)
    (h : pgs.all (WfPage names) = true) :
    (pgs.map erasePage).map
      (fun pg => { pg with parameters := pg.parameters.map (linkParam names) }) = pgs := by
  induction pgs with
  | nil => rfl
  | cons pg pgs ih =>
      rw [List.all_cons, Bool.and_eq_true] at h
      simp only [List.map_cons, ih h.2]
      congr 1
      have hw := h.1
      simp only [WfPage, Bool.and_eq_true] at hw
      obtain ⟨pgn, pgpath, pgparams, pgcst⟩ := pg
      simp only [erasePage]
      congr 1
      exact link_params names pgparams hw.1.2

theorem erasePT_names (pts : List ParamTypeDeclaration) :
    (pts.map erasePT).map (fun pt => pt.name) = pts.map (fun pt => pt.name) := by
  induction pts with
  | nil => rfl
  | cons pt pts ih => simp [erasePT, ih]

theorem linkDoc_erase (doc : URLSpecDocument) (h : WfDoc doc = true) :
    linkDoc (eraseDoc doc) = doc := by
  simp only [WfDoc, Bool.and_eq_true] at h
  obtain ⟨⟨⟨hend, hpts⟩, hglob⟩, hpages⟩ := h
  simp only [linkDoc, eraseDoc, erasePT_names]
  obtain ⟨de, dpt, dg, dp⟩ := doc
  simp only at hpts hglob hpages ⊢
  simp only [URLSpecDocument.mk.injEq, true_and, eq_self_iff_true]
  refine ⟨?_, ?_, ?_⟩
  · exact link_pts _ dpt hpts
  · cases dg with
    | none => rfl
    | some ps =>
        simp only [Option.map_some']
        exact congrArg some (link_params _ ps (by simpa using hglob))
  · exact link_pages _ dp hpages

theorem parse_print (doc : URLSpecDocument) (h : WfDoc doc = true) :
    parse (print doc) = some doc := by
  have h1 : parseStmts (docToks doc) = some (docDecls doc) :=
    parseStmts_toks (docDecls doc) (docDecls_wf doc h)
  have h2 := assemble_docDecls doc
  unfold parse
  rw [lex_print doc h]
  simp [h1, h2, linkDoc_erase doc h]

/-! ## Well-formedness of parser output -/

theorem takeWhile_all_self (p : Char → Bool) (l : List Char) :
    (l.takeWhile p).all p = true := by
  induction l with
  | nil => rfl
  | cons c l ih =>
      rw [List.takeWhile_cons]
      by_cases hc : p c
      · simp [hc, ih]
      · simp [hc]

theorem lex_comment (rest : List Char) :
    lex ('/' :: '/' :: rest) = lex (rest.dropWhile (fun e => e ≠ '\n')) := by
  rw [lex.eq_def]
  rfl

theorem lex_slash_nil : lex ['/'] = some [Tok.slash] := by
  rw [lex.eq_def]
  rfl

theorem lex_pathSeg_raw (c : Char) (rest : List Char) (hne : ¬(c = '/'))
    (hp : isPathChar c = true) :
    lex ('/' :: c :: rest) = (lex (rest.dropWhile isPathChar)).map
      (fun ts => Tok.pathSeg (String.mk (c :: rest.takeWhile isPathChar)) :: ts) := by
  rw [lex.eq_def]
  simp [show isWsChar '/' = false by decide, hne, hp]

theorem lex_str_raw (rest : List Char)
    (hlt : (rest.takeWhile (fun d => d ≠ '"')).length < rest.length) :
    lex ('"' :: rest) = (lex (rest.drop ((rest.takeWhile (fun d => d ≠ '"')).length + 1))).map
      (fun ts => Tok.str (String.mk (rest.takeWhile (fun d => d ≠ '"'))) :: ts) := by
  rw [lex.eq_def]
  simp only [show ¬('"' = '/') by decide, show isWsChar '"' = false by decide,
    Bool.false_eq_true, if_false, reduceIte, dif_pos hlt]

theorem lex_str_none (rest : List Char)
    (hnlt : ¬(rest.takeWhile (fun d => d ≠ '"')).length < rest.length) :
    lex ('"' :: rest) = none := by
  rw [lex.eq_def]
  simp only [show ¬('"' = '/') by decide, show isWsChar '"' = false by decide,
    Bool.false_eq_true, if_false, reduceIte, dif_neg hnlt]

theorem lex_ident_raw (c : Char) (rest : List Char) (h1 : ¬isWsChar c = true)
    (h2 : ¬(c = '/')) (h3 : ¬(c = '"')) (hid : isIdentStart c = true) :
    lex (c :: rest) = (lex (rest.dropWhile isIdentChar)).map
      (fun ts => Tok.ident (String.mk (c :: rest.takeWhile isIdentChar)) :: ts) := by
  rw [lex.eq_def]
  simp [h1, h2, h3, hid]

theorem lex_tokWf (cs : List Char) : ∀ ts, lex cs = some ts → ts.all TokWf = true := by
  induction cs using lex.induct with
  | case1 =>
      intro ts h
      rw [lex.eq_def] at h
      simp at h
      subst h
      rfl
  | case2 c rest hws ih =>
      intro ts h
      rw [lex_ws_cons c rest hws] at h
      exact ih ts h
  | case3 =>
      intro ts h
      rw [lex_slash_nil] at h
      have h2 := Option.some.inj h
      rw [← h2]
      rfl
  | case4 rest h1 ih =>
      intro ts h
      rw [lex_comment rest] at h
      exact ih ts h
  | case5 c rest hne hp hw ih =>
      intro ts h
      rw [lex_pathSeg_raw c rest hne hp] at h
      obtain ⟨a, ha, hts⟩ := Option.map_eq_some'.mp h
      rw [← hts]
      simp [TokWf, identShape, hp, takeWhile_all_self, ih a ha]
  | case6 c rest hne hnp hw ih =>
      intro ts h
      rw [lex_slash_cons c rest (by simpa using hnp) hne] at h
      obtain ⟨a, ha, hts⟩ := Option.map_eq_some'.mp h
      rw [← hts]
      simp [TokWf, ih a ha]
  | case7 rest hlt h2 h3 ih =>
      intro ts h
      rw [lex_str_raw rest hlt] at h
      obtain ⟨a, ha, hts⟩ := Option.map_eq_some'.mp h
      rw [← hts]
      simp [TokWf, innerOk, takeWhile_all_self, ih a ha]
  | case8 rest hnlt h2 h3 =>
      intro ts h
      rw [lex_str_none rest hnlt] at h
      cases h
  | case9 c rest h1 h2 h3 hid ih =>
      intro ts h
      rw [lex_ident_raw c rest h1 h2 h3 hid] at h
      obtain ⟨a, ha, hts⟩ := Option.map_eq_some'.mp h
      rw [← hts]
      simp [TokWf, identShape, hid, takeWhile_all_self, ih a ha]
  | case10 =>
      rename_i rest h1 h2 h3 h4 ih
      intro ts h
      rw [lex_lbrace rest] at h
      obtain ⟨a, ha, hts⟩ := Option.map_eq_some'.mp h
      rw [← hts]
      simp [TokWf, ih a ha]
  | case11 =>
      rename_i ih
      intro ts h
      rw [lex_rbrace] at h
      obtain ⟨a, ha, hts⟩ := Option.map_eq_some'.mp h
      rw [← hts]
      simp [TokWf, ih a ha]
  | case12 =>
      rename_i ih
      intro ts h
      rw [lex_eq_tok] at h
      obtain ⟨a, ha, hts⟩ := Option.map_eq_some'.mp h
      rw [← hts]
      simp [TokWf, ih a ha]
  | case13 =>
      rename_i ih
      intro ts h
      rw [lex_semi] at h
      obtain ⟨a, ha, hts⟩ := Option.map_eq_some'.mp h
      rw [← hts]
      simp [TokWf, ih a ha]
  | case14 =>
      rename_i ih
      intro ts h
      rw [lex_quest] at h
      obtain ⟨a, ha, hts⟩ := Option.map_eq_some'.mp h
      rw [← hts]
      simp [TokWf, ih a ha]
  | case15 =>
      rename_i ih
      intro ts h
      rw [lex_colon] at h
      obtain ⟨a, ha, hts⟩ := Option.map_eq_some'.mp h
      rw [← hts]
      simp [TokWf, ih a ha]
  | case16 =>
      rename_i ih
      intro ts h
      rw [lex_pipe] at h
      obtain ⟨a, ha, hts⟩ := Option.map_eq_some'.mp h
      rw [← hts]
      simp [TokWf, ih a ha]
  | case17 =>
      intro ts h
      rw [lex.eq_def] at h
      simp_all

theorem quotedShape_qv (s : String) (h : innerOk s = true) : quotedShape (qv s) = true := by
  have hdata : (qv s).data = '"' :: (s.data ++ ['"']) := by
    simp [qv, String.data_append]
  simp only [quotedShape, hdata, List.dropLast_concat, List.getLast?_concat]
  simp [innerOk] at h
  simp
  intro x hx
  exact h x hx

theorem parseUnionTail_wf (toks : List Tok) (h : toks.all TokWf = true) :
    ∀ c, parseUnionTail toks = some c →
      c.val ≠ [] ∧ c.val.all quotedShape = true ∧ c.rest.all TokWf = true := by
  induction toks using parseUnionTail.induct with
  | case1 s rest c2 hc2 ih =>
      intro c hc
      rw [List.all_cons, Bool.and_eq_true] at h
      have h2 := h.2
      rw [List.all_cons, Bool.and_eq_true] at h2
      have ihr := ih h2.2 c2 hc2
      simp only [parseUnionTail, hc2] at hc
      have hcc := Option.some.inj hc
      rw [← hcc]
      refine ⟨by simp, ?_, ihr.2.2⟩
      simp only [List.all_cons, Bool.and_eq_true]
      exact ⟨quotedShape_qv s (by simpa [TokWf] using h.1), ihr.2.1⟩
  | case2 s rest hnone ih =>
      intro c hc
      simp only [parseUnionTail, hnone] at hc
      exact Option.noConfusion hc
  | case3 s rest hpat =>
      intro c hc
      rw [List.all_cons, Bool.and_eq_true] at h
      have harm : parseUnionTail (Tok.str s :: rest)
          = some ⟨[qv s], rest, by simp⟩ := by
        cases rest with
        | nil => rfl
        | cons t2 r2 =>
            cases t2 <;> first | (exact (hpat r2 rfl).elim) | rfl
      rw [harm] at hc
      have hcc := Option.some.inj hc
      rw [← hcc]
      exact ⟨by simp, by simp [quotedShape_qv s (by simpa [TokWf] using h.1)], h.2⟩
  | case4 t h1 h2 =>
      intro c hc
      exfalso
      cases t with
      | nil => simp [parseUnionTail] at hc
      | cons t0 r0 =>
          cases t0 <;> first | (exact h2 _ r0 rfl) | simp [parseUnionTail] at hc

theorem parseTypeToks_wf (toks : List Tok) (h : toks.all TokWf = true) :
    ∀ c, parseTypeToks toks = some c →
      WfTyRaw c.val = true ∧ c.rest.all TokWf = true := by
  intro c hc
  cases toks with
  | nil => simp [parseTypeToks] at hc
  | cons t0 r0 =>
      rw [List.all_cons, Bool.and_eq_true] at h
      cases t0 with
      | ident nm =>
          by_cases hnm : nm = "string"
          · simp only [parseTypeToks, hnm, if_pos rfl] at hc
            have hcc := Option.some.inj hc
            rw [← hcc]
            exact ⟨rfl, h.2⟩
          · simp only [parseTypeToks, if_neg hnm] at hc
            have hcc := Option.some.inj hc
            rw [← hcc]
            refine ⟨?_, h.2⟩
            have hid : identShape nm = true := by simpa [TokWf] using h.1
            simp [WfTyRaw, hnm, hid]
      | str s =>
          have hqs : quotedShape (qv s) = true :=
            quotedShape_qv s (by simpa [TokWf] using h.1)
          cases r0 with
          | nil =>
              simp only [parseTypeToks] at hc
              have hcc := Option.some.inj hc
              rw [← hcc]
              refine ⟨?_, by simp⟩
              simpa [WfTyRaw] using hqs
          | cons t1 r1 =>
              by_cases hp : t1 = Tok.pipe
              · subst hp
                cases hx : parseUnionTail r1 with
                | some c2 =>
                    have h2 := h.2
                    rw [List.all_cons, Bool.and_eq_true] at h2
                    have hu := parseUnionTail_wf r1 h2.2 c2 hx
                    simp only [parseTypeToks, hx] at hc
                    have hcc := Option.some.inj hc
                    rw [← hcc]
                    refine ⟨?_, hu.2.2⟩
                    simp only [WfTyRaw, Bool.and_eq_true, decide_eq_true_eq]
                    constructor
                    · cases hcv : c2.val with
                      | nil => exact absurd hcv hu.1
                      | cons a l => simp
                    · simp only [List.all_cons, Bool.and_eq_true]
                      exact ⟨hqs, hu.2.1⟩
                | none =>
                    simp only [parseTypeToks, hx] at hc
                    exact Option.noConfusion hc
              · have harm : parseTypeToks (Tok.str s :: t1 :: r1)
                    = some ⟨Ty.strLit (qv s), t1 :: r1, by simp⟩ := by
                  cases t1 <;> first | (exact absurd rfl hp) | rfl
                rw [harm] at hc
                have hcc := Option.some.inj hc
                rw [← hcc]
                refine ⟨?_, h.2⟩
                simpa [WfTyRaw] using hqs
      | pathSeg s => simp [parseTypeToks] at hc
      | slash => simp [parseTypeToks] at hc
      | lbrace => simp [parseTypeToks] at hc
      | rbrace => simp [parseTypeToks] at hc
      | eq => simp [parseTypeToks] at hc
      | semi => simp [parseTypeToks] at hc
      | quest => simp [parseTypeToks] at hc
      | colon => simp [parseTypeToks] at hc
      | pipe => simp [parseTypeToks] at hc

theorem parseEntry_wf (toks : List Tok) (h : toks.all TokWf = true) :
    ∀ c, parseEntry toks = some c →
      WfParamRaw c.val = true ∧ c.rest.all TokWf = true := by
  intro c hc
  cases toks with
  | nil => exact Option.noConfusion hc
  | cons t0 r0 =>
      cases t0 <;> try exact Option.noConfusion hc
      case ident nm =>
      rw [List.all_cons, Bool.and_eq_true] at h
      have hid : identShape nm = true := by simpa [TokWf] using h.1
      cases r0 with
      | nil => exact Option.noConfusion hc
      | cons t1 r1 =>
          have h2 := h.2
          rw [List.all_cons, Bool.and_eq_true] at h2
          cases t1 <;> try exact Option.noConfusion hc
          case quest =>
              cases r1 with
              | nil => exact Option.noConfusion hc
              | cons t2 r2 =>
                  have h3 := h2.2
                  rw [List.all_cons, Bool.and_eq_true] at h3
                  cases t2 <;> try exact Option.noConfusion hc
                  case colon =>
                  cases hx : parseTypeToks r2 with
                  | none => simp [parseEntry, hx] at hc
                  | some c1 =>
                      have hty := parseTypeToks_wf r2 h3.2 c1 hx
                      simp only [parseEntry, hx] at hc
                      split at hc
                      · rename_i r3 heq
                        have hcc := Option.some.inj hc
                        rw [← hcc]
                        constructor
                        · simp [WfParamRaw, hid, hty.1]
                        · have hw := hty.2
                          rw [heq, List.all_cons, Bool.and_eq_true] at hw
                          exact hw.2
                      · exact Option.noConfusion hc
          case colon =>
              cases hx : parseTypeToks r1 with
              | none => simp [parseEntry, hx] at hc
              | some c1 =>
                  have hty := parseTypeToks_wf r1 h2.2 c1 hx
                  simp only [parseEntry, hx] at hc
                  split at hc
                  · rename_i r3 heq
                    have hcc := Option.some.inj hc
                    rw [← hcc]
                    constructor
                    · simp [WfParamRaw, hid, hty.1]
                    · have hw := hty.2
                      rw [heq, List.all_cons, Bool.and_eq_true] at hw
                      exact hw.2
                  · exact Option.noConfusion hc

theorem parseParams_wf (toks : List Tok) : toks.all TokWf = true →
    ∀ c, parseParams toks = some c →
      c.val.all WfParamRaw = true ∧ c.rest.all TokWf = true := by
  induction toks using parseParams.induct with
  | case1 rest =>
      intro h c hc
      rw [parseParams.eq_def] at hc
      simp only at hc
      have hcc := Option.some.inj hc
      rw [← hcc]
      rw [List.all_cons, Bool.and_eq_true] at h
      exact ⟨rfl, h.2⟩
  | case2 toks hnr c1 hc1 c2 hc2 ih =>
      intro h c hc
      have he := parseEntry_wf toks h c1 hc1
      have ihp := ih he.2 c2 hc2
      rw [parseParams.eq_def] at hc
      split at hc
      · rename_i n
        exact (hnr n rfl).elim
      · simp only [hc1, hc2] at hc
        have hcc := Option.some.inj hc
        rw [← hcc]
        refine ⟨?_, ihp.2⟩
        simp only [List.all_cons, Bool.and_eq_true]
        exact ⟨he.1, ihp.1⟩
  | case3 toks hnr c1 hc1 hc2 ih =>
      intro h c hc
      rw [parseParams.eq_def] at hc
      split at hc
      · rename_i n
        exact (hnr n rfl).elim
      · simp only [hc1, hc2] at hc
        exact Option.noConfusion hc
  | case4 toks hnr hc1 =>
      intro h c hc
      rw [parseParams.eq_def] at hc
      split at hc
      · rename_i n
        exact (hnr n rfl).elim
      · simp only [hc1] at hc
        exact Option.noConfusion hc

theorem parseAtoms_wf (toks : List Tok) : toks.all TokWf = true →
    ∀ c, parseAtoms toks = some c →
      c.val ≠ [] ∧ c.val.all WfSeg = true ∧ c.rest.all TokWf = true := by
  induction toks using parseAtoms.induct with
  | case1 s rest c1 hc1 ih =>
      intro h c hc
      rw [List.all_cons, Bool.and_eq_true] at h
      have ihr := ih h.2 c1 hc1
      simp only [parseAtoms, hc1] at hc
      have hcc := Option.some.inj hc
      rw [← hcc]
      refine ⟨by simp, ?_, ihr.2.2⟩
      simp only [List.all_cons, Bool.and_eq_true]
      refine ⟨?_, ihr.2.1⟩
      have hw : (!s.data.isEmpty && s.data.all isPathChar) = true := by
        simpa [TokWf] using h.1
      rw [Bool.and_eq_true] at hw
      simp only [WfSeg]
      rw [show ("/" ++ s).data = '/' :: s.data by simp [String.data_append]]
      simp [hw.1, hw.2]
  | case2 s rest hnone ih =>
      intro h c hc
      rw [List.all_cons, Bool.and_eq_true] at h
      simp only [parseAtoms, hnone] at hc
      have hcc := Option.some.inj hc
      rw [← hcc]
      refine ⟨by simp, ?_, h.2⟩
      have hw : (!s.data.isEmpty && s.data.all isPathChar) = true := by
        simpa [TokWf] using h.1
      rw [Bool.and_eq_true] at hw
      simp only [List.all_cons, List.all_nil, Bool.and_eq_true, Bool.and_true]
      simp only [WfSeg]
      rw [show ("/" ++ s).data = '/' :: s.data by simp [String.data_append]]
      simp [hw.1, hw.2]
  | case3 nm rest c1 hc1 ih =>
      intro h c hc
      rw [List.all_cons, Bool.and_eq_true] at h
      have h2 := h.2
      rw [List.all_cons, Bool.and_eq_true] at h2
      have h3 := h2.2
      rw [List.all_cons, Bool.and_eq_true] at h3
      have ihr := ih h3.2 c1 hc1
      simp only [parseAtoms, hc1] at hc
      have hcc := Option.some.inj hc
      rw [← hcc]
      refine ⟨by simp, ?_, ihr.2.2⟩
      simp only [List.all_cons, Bool.and_eq_true]
      refine ⟨?_, ihr.2.1⟩
      simp only [WfSeg]
      simpa [TokWf] using h3.1
  | case4 nm rest hnone ih =>
      intro h c hc
      rw [List.all_cons, Bool.and_eq_true] at h
      have h2 := h.2
      rw [List.all_cons, Bool.and_eq_true] at h2
      have h3 := h2.2
      rw [List.all_cons, Bool.and_eq_true] at h3
      simp only [parseAtoms, hnone] at hc
      have hcc := Option.some.inj hc
      rw [← hcc]
      refine ⟨by simp, ?_, h3.2⟩
      simp only [List.all_cons, List.all_nil, Bool.and_eq_true, Bool.and_true]
      simp only [WfSeg]
      simpa [TokWf] using h3.1
  | case5 t h1 h2 =>
      intro h c hc
      exfalso
      cases t with
      | nil => exact Option.noConfusion hc
      | cons t0 r0 =>
          cases t0 <;> try exact Option.noConfusion hc
          case pathSeg s => exact h1 s r0 rfl
          case slash =>
              cases r0 with
              | nil => exact Option.noConfusion hc
              | cons t1 r1 =>
                  cases t1 <;> try exact Option.noConfusion hc
                  case colon =>
                  cases r1 with
                  | nil => exact Option.noConfusion hc
                  | cons t2 r2 =>
                      cases t2 <;> try exact Option.noConfusion hc
                      case ident nm => exact h2 nm r2 rfl

theorem parsePathToks_wf (toks : List Tok) (h : toks.all TokWf = true) :
    ∀ c, parsePathToks toks = some c →
      WfPath c.val = true ∧ c.rest.all TokWf = true := by
  intro c hc
  cases toks with
  | nil => exact Option.noConfusion hc
  | cons t0 r0 =>
      cases t0 <;> try exact Option.noConfusion hc
      case pathSeg s =>
          cases hx : parseAtoms (Tok.pathSeg s :: r0) with
          | none => simp [parsePathToks, hx] at hc
          | some c1 =>
              have ha := parseAtoms_wf (Tok.pathSeg s :: r0) h c1 hx
              simp only [parsePathToks, hx] at hc
              have hcc := Option.some.inj hc
              rw [← hcc]
              refine ⟨?_, ha.2.2⟩
              have hne : c1.val.isEmpty = false := by
                cases hv : c1.val with
                | nil => exact absurd hv ha.1
                | cons a l => rfl
              simp [WfPath, hne, ha.2.1]
      case slash =>
          cases r0 with
          | nil =>
              simp only [parsePathToks] at hc
              have hcc := Option.some.inj hc
              rw [← hcc]
              exact ⟨rfl, by simp⟩
          | cons t1 r1 =>
              by_cases hcol : t1 = Tok.colon
              · subst hcol
                cases hx : parseAtoms (Tok.slash :: Tok.colon :: r1) with
                | none => simp [parsePathToks, hx] at hc
                | some c1 =>
                    have ha := parseAtoms_wf (Tok.slash :: Tok.colon :: r1) h c1 hx
                    simp only [parsePathToks, hx] at hc
                    have hcc := Option.some.inj hc
                    rw [← hcc]
                    refine ⟨?_, ha.2.2⟩
                    have hne : c1.val.isEmpty = false := by
                      cases hv : c1.val with
                      | nil => exact absurd hv ha.1
                      | cons a l => rfl
                    simp [WfPath, hne, ha.2.1]
              · have harm : parsePathToks (Tok.slash :: t1 :: r1)
                    = some ⟨{ root := true, segments := [] }, t1 :: r1, by simp⟩ := by
                  cases t1 <;> first | (exact absurd rfl hcol) | rfl
                rw [harm] at hc
                have hcc := Option.some.inj hc
                rw [← hcc]
                rw [List.all_cons, Bool.and_eq_true] at h
                exact ⟨rfl, h.2⟩

theorem parseDecl_wf (toks : List Tok) (h : toks.all TokWf = true) :
    ∀ c, parseDecl toks = some c →
      WfDeclRaw c.val = true ∧ c.rest.all TokWf = true := by
  intro c hc
  cases toks with
  | nil => exact Option.noConfusion hc
  | cons t0 r0 =>
      cases t0 <;> try exact Option.noConfusion hc
      case ident nm =>
      rw [List.all_cons, Bool.and_eq_true] at h
      by_cases h1 : nm = "endpoint"
      · subst h1
        cases r0 with
        | nil => exact Option.noConfusion hc
        | cons t1 r1 =>
            cases t1 <;> try exact Option.noConfusion hc
            rename_i u
            cases r1 with
            | nil => exact Option.noConfusion hc
            | cons t2 r2 =>
                cases t2 <;> try exact Option.noConfusion hc
                simp only [parseDecl] at hc
                have hcc := Option.some.inj hc
                rw [← hcc]
                have h2 := h.2
                rw [List.all_cons, Bool.and_eq_true] at h2
                have h3 := h2.2
                rw [List.all_cons, Bool.and_eq_true] at h3
                refine ⟨?_, h3.2⟩
                simpa [WfDeclRaw, TokWf] using h2.1
      · by_cases h2k : nm = "param"
        · subst h2k
          cases r0 with
          | nil => exact Option.noConfusion hc
          | cons t1 r1 =>
              cases t1 <;> try exact Option.noConfusion hc
              rename_i nm2
              cases r1 with
              | nil => exact Option.noConfusion hc
              | cons t2 r2 =>
                  cases t2 <;> try exact Option.noConfusion hc
                  have h2 := h.2
                  rw [List.all_cons, Bool.and_eq_true] at h2
                  have h3 := h2.2
                  rw [List.all_cons, Bool.and_eq_true] at h3
                  cases hx : parseTypeToks r2 with
                  | none => simp [parseDecl, hx] at hc
                  | some c1 =>
                      have hty := parseTypeToks_wf r2 h3.2 c1 hx
                      simp only [parseDecl, hx] at hc
                      split at hc
                      · rename_i r3 heq
                        have hcc := Option.some.inj hc
                        rw [← hcc]
                        constructor
                        · have hid : identShape nm2 = true := by
                            simpa [TokWf] using h2.1
                          simp [WfDeclRaw, hid, hty.1]
                        · have hw := hty.2
                          rw [heq, List.all_cons, Bool.and_eq_true] at hw
                          exact hw.2
                      · exact Option.noConfusion hc
        · by_cases h3k : nm = "global"
          · subst h3k
            cases r0 with
            | nil => exact Option.noConfusion hc
            | cons t1 r1 =>
                cases t1 <;> try exact Option.noConfusion hc
                have h2 := h.2
                rw [List.all_cons, Bool.and_eq_true] at h2
                cases hx : parseParams r1 with
                | none => simp [parseDecl, hx] at hc
                | some c1 =>
                    have hp := parseParams_wf r1 h2.2 c1 hx
                    simp only [parseDecl, hx] at hc
                    have hcc := Option.some.inj hc
                    rw [← hcc]
                    refine ⟨?_, hp.2⟩
                    simpa [WfDeclRaw] using hp.1
          · by_cases h4k : nm = "page"
            · subst h4k
              cases r0 with
              | nil => exact Option.noConfusion hc
              | cons t1 r1 =>
                  cases t1 <;> try exact Option.noConfusion hc
                  rename_i nm2
                  cases r1 with
                  | nil => exact Option.noConfusion hc
                  | cons t2 r2 =>
                      cases t2 <;> try exact Option.noConfusion hc
                      have h2 := h.2
                      rw [List.all_cons, Bool.and_eq_true] at h2
                      have h3 := h2.2
                      rw [List.all_cons, Bool.and_eq_true] at h3
                      cases hx : parsePathToks r2 with
                      | none => simp [parseDecl, hx] at hc
                      | some c1 =>
                          have hpa := parsePathToks_wf r2 h3.2 c1 hx
                          simp only [parseDecl, hx] at hc
                          split at hc
                          · rename_i r3 heq
                            have hw := hpa.2
                            rw [heq, List.all_cons, Bool.and_eq_true] at hw
                            cases hx2 : parseParams r3 with
                            | none => simp [hx2] at hc
                            | some c2 =>
                                have hp2 := parseParams_wf r3 hw.2 c2 hx2
                                simp only [hx2] at hc
                                have hcc := Option.some.inj hc
                                rw [← hcc]
                                refine ⟨?_, hp2.2⟩
                                have hid : identShape nm2 = true := by
                                  simpa [TokWf] using h2.1
                                simp [WfDeclRaw, WfPageRaw, hid, hpa.1, hp2.1]
                          · exact Option.noConfusion hc
            · rw [parseDecl.eq_def] at hc
              simp [h1, h2k, h3k, h4k] at hc

theorem parseStmts_wf (toks : List Tok) : toks.all TokWf = true →
    ∀ ds, parseStmts toks = some ds → ds.all WfDeclRaw = true := by
  induction toks using parseStmts.induct with
  | case1 =>
      intro h ds hds
      rw [parseStmts.eq_def] at hds
      simp only at hds
      rw [← Option.some.inj hds]
      rfl
  | case2 toks hne c hc ih =>
      intro h ds hds
      have hd := parseDecl_wf toks h c hc
      rw [parseStmts.eq_def] at hds
      split at hds
      · exact (hne rfl).elim
      · simp only [hc] at hds
        obtain ⟨a, ha, hts⟩ := Option.map_eq_some'.mp hds
        rw [← hts]
        simp only [List.all_cons, Bool.and_eq_true]
        exact ⟨hd.1, ih hd.2 a ha⟩
  | case3 toks hne hc =>
      intro h ds hds
      rw [parseStmts.eq_def] at hds
      split at hds
      · exact (hne rfl).elim
      · simp only [hc] at hds
        exact Option.noConfusion hds

theorem assembleGo_wf (ds : List Decl) : ∀ acc : URLSpecDocument,
    ds.all WfDeclRaw = true → WfDocRaw acc = true →
    ∀ d, assembleGo ds acc = some d → WfDocRaw d = true := by
  induction ds with
  | nil =>
      intro acc hds hacc d hd
      simp only [assembleGo] at hd
      rw [← Option.some.inj hd]
      exact hacc
  | cons d0 ds ih =>
      intro acc hds hacc d hd
      rw [List.all_cons, Bool.and_eq_true] at hds
      simp only [WfDocRaw, Bool.and_eq_true] at hacc
      obtain ⟨⟨⟨he, hpt⟩, hg⟩, hp⟩ := hacc
      cases d0 with
      | endpointD u =>
          simp only [assembleGo] at hd
          cases hE : acc.endpoint with
          | some v => rw [hE] at hd; exact Option.noConfusion hd
          | none =>
              rw [hE] at hd
              refine ih _ hds.2 ?_ d hd
              simp only [WfDocRaw, Bool.and_eq_true]
              exact ⟨⟨⟨by simpa [WfDeclRaw] using hds.1, hpt⟩, hg⟩, hp⟩
      | paramTypeD pt =>
          simp only [assembleGo] at hd
          refine ih _ hds.2 ?_ d hd
          simp only [WfDocRaw, Bool.and_eq_true, List.all_append, List.all_cons,
            List.all_nil, Bool.and_true]
          exact ⟨⟨⟨he, ⟨hpt, by simpa [WfDeclRaw] using hds.1⟩⟩, hg⟩, hp⟩
      | globalD ps =>
          simp only [assembleGo] at hd
          cases hG : acc.global with
          | some v => rw [hG] at hd; exact Option.noConfusion hd
          | none =>
              rw [hG] at hd
              refine ih _ hds.2 ?_ d hd
              simp only [WfDocRaw, Bool.and_eq_true]
              exact ⟨⟨⟨he, hpt⟩, by simpa [WfDeclRaw] using hds.1⟩, hp⟩
      | pageD pg =>
          simp only [assembleGo] at hd
          refine ih _ hds.2 ?_ d hd
          simp only [WfDocRaw, Bool.and_eq_true, List.all_append, List.all_cons,
            List.all_nil, Bool.and_true]
          exact ⟨⟨⟨he, hpt⟩, hg⟩, ⟨hp, by simpa [WfDeclRaw] using hds.1⟩⟩

theorem wfTy_link (names : List String) (t : Ty) (h : WfTyRaw t = true) :
    WfTy names (linkTy names t) = true := by
  cases t with
  | stringKw => rfl
  | strLit v => simpa [WfTyRaw, WfTy, linkTy] using h
  | union vs => simpa [WfTyRaw, WfTy, linkTy] using h
  | ref nm l =>
      simp only [WfTyRaw, Bool.and_eq_true, decide_eq_true_eq] at h
      simp [linkTy, WfTy, h.1.1, h.1.2]

theorem link_pts_wf (names : List String) (pts : List ParamTypeDeclaration)
    (h : pts.all (fun pt => identShape pt.name && WfTyRaw pt.type && (pt.cst == none)) = true) :
    (pts.map (fun pt => { pt with type := linkTy names pt.type })).all
      (fun pt => identShape pt.name && WfTy names pt.type && (pt.cst == none)) = true := by
  rw [List.all_eq_true] at h ⊢
  intro pt hpt
  obtain ⟨p0, hp0, hpe⟩ := List.mem_map.mp hpt
  rw [← hpe]
  have h0 := h p0 hp0
  simp only [Bool.and_eq_true] at h0 ⊢
  exact ⟨⟨h0.1.1, wfTy_link names p0.type h0.1.2⟩, h0.2⟩

theorem link_params_wf (names : List String) (ps : List ParameterDeclaration)
    (h : ps.all WfParamRaw = true) :
    (ps.map (linkParam names)).all (WfParam names) = true := by
  rw [List.all_eq_true] at h ⊢
  intro p hpm
  obtain ⟨p0, hp0, hpe⟩ := List.mem_map.mp hpm
  rw [← hpe]
  have h0 := h p0 hp0
  simp only [WfParamRaw, Bool.and_eq_true] at h0
  simp only [WfParam, linkParam, Bool.and_eq_true]
  exact ⟨⟨h0.1.1, wfTy_link names p0.type h0.1.2⟩, h0.2⟩

theorem link_pages_wf (names : List String) (pgs : List PageDeclaration)
    (h : pgs.all WfPageRaw = true) :
    (pgs.map (fun pg => { pg with parameters := pg.parameters.map (linkParam names) })).all
      (WfPage names) = true := by
  rw [List.all_eq_true] at h ⊢
  intro pg hpm
  obtain ⟨p0, hp0, hpe⟩ := List.mem_map.mp hpm
  rw [← hpe]
  have h0 := h p0 hp0
  simp only [WfPageRaw, Bool.and_eq_true] at h0
  simp only [WfPage, Bool.and_eq_true]
  exact ⟨⟨⟨h0.1.1.1, h0.1.1.2⟩, link_params_wf names p0.parameters h0.1.2⟩, h0.2⟩

theorem upd_names (names : List String) (pts : List ParamTypeDeclaration) :
    (pts.map (fun pt => { pt with type := linkTy names pt.type })).map
        (fun pt => pt.name)
      = pts.map (fun pt => pt.name) := by
  induction pts with
  | nil => rfl
  | cons pt pts ih => simp [ih]

theorem linkDoc_wf (d : URLSpecDocument) (h : WfDocRaw d = true) :
    WfDoc (linkDoc d) = true := by
  obtain ⟨de, dpt, dg, dp⟩ := d
  simp only [WfDocRaw, Bool.and_eq_true] at h
  obtain ⟨⟨⟨hend, hpt⟩, hg⟩, hp⟩ := h
  simp only [linkDoc, WfDoc, upd_names, Bool.and_eq_true]
  refine ⟨⟨⟨hend, link_pts_wf _ dpt hpt⟩, ?_⟩, link_pages_wf _ dp hp⟩
  cases dg with
  | none => rfl
  | some ps =>
      simpa using link_params_wf _ ps (by simpa using hg)

theorem parse_wf (s : String) (doc : URLSpecDocument) (h : parse s = some doc) :
    WfDoc doc = true := by
  simp only [parse, assemble, Option.bind_eq_bind, Option.bind_eq_some, Option.pure_def,
    Option.some.injEq] at h
  obtain ⟨toks, htoks, ds, hds, d0, hd0, hdoc⟩ := h
  have h1 := lex_tokWf s.data toks htoks
  have h2 := parseStmts_wf toks h1 ds hds
  have h3 := assembleGo_wf ds
    { endpoint := none, paramTypes := [], global := none, pages := [] } h2 (by rfl) d0 hd0
  rw [← hdoc]
  exact linkDoc_wf d0 h3

/-- C2: for every syntactically valid document D — every D on which parsing
succeeds, so that printParse D = some r — printing is a fixed point of the
parse-then-print pipeline: parse r succeeds and prints back to r itself,
character for character (printParse r = some r). -/
theorem claim_C2 (D r : String) (h : printParse D = some r) : printParse r = some r := by
  simp only [printParse, Option.map_eq_some'] at h ⊢
  obtain ⟨doc, hdoc, hr⟩ := h
  have hwf := parse_wf D doc hdoc
  refine ⟨doc, ?_, hr⟩
  rw [← hr]
  exact parse_print doc hwf

theorem claim_C2_witness :
    printParse (print prsDoc) = some (print prsDoc) :=
  claim_C2 (print prsDoc) (print prsDoc)
    (by rw [printParse, parse_print prsDoc (by decide)]; rfl)

end URLSpec
